import Mathlib

set_option autoImplicit false

/-
Verification of the hierarchical test-result model and parser of the
keyman-web-test-runner-extension repository.

The development shallowly embeds:
  - `TestResultParser.parseTestResults` (src/testResultParser.ts): strings are
    modelled as `List Char`; the two JavaScript regular expressions used by the
    parser are modelled by executable backtracking matchers that follow the
    greedy/lazy semantics of the ECMAScript regex engine for those exact
    patterns; the JavaScript `Map` is modelled as an insertion-ordered
    association list.
  - `HierarchicalReporter` (mocha-reporter/hierarchical.ts): the event-driven
    reporter is modelled as a step function over an explicit state consisting
    of the root suite tree, the suite stack (represented as the path from the
    root to the current suite, since the stack always holds the chain of
    ancestors), and the suite counter.  A stack underflow (the JavaScript code
    pops the root off the stack without error) is represented by `path = none`;
    accessing the top of the empty stack models the JavaScript `TypeError` as
    an `Except.error`.
  - `TestController.updateTestItemResults` (src/testController.ts): the
    VS Code test-item tree is modelled as a labelled rose tree, and the
    `run.passed`/`run.failed` side effects are modelled as outcome annotations
    on a mirrored tree.
-/

namespace WTR

/-- Character class of the ECMAScript `\s` (WhiteSpace and LineTerminator). -/
def wsChar (c : Char) : Bool :=
  let n := c.toNat
  n == 0x20 || (decide (0x9 ≤ n) && decide (n ≤ 0xd)) || n == 0xa0 ||
  n == 0x1680 || (decide (0x2000 ≤ n) && decide (n ≤ 0x200a)) ||
  n == 0x2028 || n == 0x2029 || n == 0x202f || n == 0x205f ||
  n == 0x3000 || n == 0xfeff

/-- Character class of the ECMAScript `.` (any char except line terminators). -/
def dotChar (c : Char) : Bool :=
  !(c == '\n' || c == '\r' || c.toNat == 0x2028 || c.toNat == 0x2029)

/-- Model of JavaScript `String.prototype.trim`. -/
def jsTrim (l : List Char) : List Char :=
  ((l.dropWhile wsChar).reverse.dropWhile wsChar).reverse

/-- Model of JavaScript `String.prototype.split` with a one-character
separator: every occurrence splits, empty segments are kept. -/
def jsSplit (sep : Char) : List Char → List (List Char)
  | [] => [[]]
  | c :: cs =>
    match jsSplit sep cs with
    | [] => [[]]
    | r :: rs => if c == sep then [] :: r :: rs else (c :: r) :: rs

/-- Entry of the parser's result map: `{ passed: boolean; message?: string }`. -/
structure TestResult where
  passed : Bool
  message : Option (List Char)
deriving DecidableEq, Repr, Inhabited

/-- The result map, modelling an insertion-ordered JavaScript `Map`. -/
abbrev RMap := List (List Char × TestResult)

/-- Model of `Map.prototype.has`. -/
def mapHas (m : RMap) (k : List Char) : Bool :=
  m.any (fun e => e.1 == k)

/-- Model of `Map.prototype.get`. -/
def mapGet (m : RMap) (k : List Char) : Option TestResult :=
  (m.find? (fun e => e.1 == k)).map (fun e => e.2)

/-- Model of `Map.prototype.set`: overwrite in place, or append at the end. -/
def mapSet (m : RMap) (k : List Char) (v : TestResult) : RMap :=
  if mapHas m k then m.map (fun e => if e.1 == k then (k, v) else e)
  else m ++ [(k, v)]

/-- Model of `results.get(k)!.message = msg` (in-place mutation of an entry). -/
def mapSetMessage (m : RMap) (k : List Char) (msg : List Char) : RMap :=
  m.map (fun e =>
    if e.1 == k then (e.1, { e.2 with message := some msg }) else e)

/-- Keys of the result map, in insertion order. -/
def keysOf (m : RMap) : List (List Char) :=
  m.map (fun e => e.1)

/-
Backtracking matcher for the result-line regex
  /^\s+([\s\S]?)\s+(.+)$/u
from `parseTestResults`.  Each function models one suffix of the pattern, in
the exact backtracking order of the ECMAScript engine (greedy quantifiers try
the longest extension first, the optional group tries one code point before
the empty string).
-/

/-- Matcher for `(.+)$`: succeeds on a non-empty remainder of dot-chars. -/
def dotPlus (l : List Char) : Option (List Char) :=
  if !l.isEmpty && l.all dotChar then some l else none

/-- Matcher for `\s*(.+)$` (the tail of the second `\s+`), greedy. -/
def wsMoreDot : List Char → Option (List Char)
  | [] => none
  | c :: cs =>
    if wsChar c then
      match wsMoreDot cs with
      | some r => some r
      | none => dotPlus (c :: cs)
    else dotPlus (c :: cs)

/-- Matcher for `\s+(.+)$`. -/
def wsPlusDot : List Char → Option (List Char)
  | [] => none
  | c :: cs => if wsChar c then wsMoreDot cs else none

/-- Matcher for `([\s\S]?)\s+(.+)$`: the optional group takes one code point
first and backtracks to the empty string. Returns (group 1, group 2). -/
def symRest : List Char → Option (Option Char × List Char)
  | [] => none
  | c :: cs =>
    match wsPlusDot cs with
    | some r => some (some c, r)
    | none =>
      match wsPlusDot (c :: cs) with
      | some r => some (none, r)
      | none => none

/-- Matcher for `\s*([\s\S]?)\s+(.+)$` (the tail of the first `\s+`). -/
def wsMoreSym : List Char → Option (Option Char × List Char)
  | [] => none
  | c :: cs =>
    if wsChar c then
      match wsMoreSym cs with
      | some r => some r
      | none => symRest (c :: cs)
    else symRest (c :: cs)

/-- Model of `line.match(/^\s+([\s\S]?)\s+(.+)$/u)`: `none` when the line does
not match; otherwise `some (group1, group2)` where `group1 = none` models an
empty first capture. -/
def lineMatch : List Char → Option (Option Char × List Char)
  | [] => none
  | c :: cs => if wsChar c then wsMoreSym cs else none

/-- Contribution of a single line to the result map: the blank-line skip, the
`match && match[1]` test, trimming of the title, and the `✓` test, exactly as
in the per-line loop of `parseTestResults`. -/
def lineEntry (line : List Char) : Option (List Char × TestResult) :=
  if (jsTrim line).isEmpty then none
  else
    match lineMatch line with
    | some (some c, rest) => some (jsTrim rest, ⟨c == '✓', none⟩)
    | _ => none

/-- One iteration of the per-line loop of `parseTestResults`. -/
def processLine (m : RMap) (line : List Char) : RMap :=
  match lineEntry line with
  | some (k, v) => mapSet m k v
  | none => m

/-
Model of `output.replace(/\x1b\[[0-9;]*m/g, "")`, the ANSI strip.
-/

/-- Character class `[0-9;]` of the SGR parameter bytes. -/
def sgrParam (c : Char) : Bool :=
  (decide ('0' ≤ c) && decide (c ≤ '9')) || c == ';'

/-- After `ESC [`, consume the maximal run of `[0-9;]` and the final `m`;
returns the rest on success. (No backtracking exists here: `m` is not a
parameter byte, so only the maximal run can be followed by `m`.) -/
def takeParams : List Char → Option (List Char)
  | [] => none
  | c :: cs => if sgrParam c then takeParams cs else if c == 'm' then some cs else none

/-- Fuel-indexed single pass of the global SGR replacement: at each position
try to match `ESC [ [0-9;]* m`; on success drop it and continue after it,
otherwise emit one character and move on. -/
def cleanAnsiFuel : Nat → List Char → List Char
  | 0, l => l
  | _ + 1, [] => []
  | f + 1, c :: cs =>
    if c == '\x1b' then
      match cs with
      | d :: cs2 =>
        if d == '[' then
          match takeParams cs2 with
          | some rest => cleanAnsiFuel f rest
          | none => c :: cleanAnsiFuel f cs
        else c :: cleanAnsiFuel f cs
      | [] => c :: cleanAnsiFuel f cs
    else c :: cleanAnsiFuel f cs

/-- Model of the SGR strip `output.replace(/\x1b\[[0-9;]*m/g, "")`. -/
def cleanAnsi (l : List Char) : List Char :=
  cleanAnsiFuel l.length l

/-
Backtracking matcher for the failure-block regex
  /❌\s+(.+?)\n([\s\S]+?)(?=\n\s*(?:Chromium|Firefox|Webkit|Finished|$))/g
from `parseTestResults`.
-/

/-- Literal-list membership used by the terminator lookahead: one of the
browser names, `Finished`, or end of input (`$`, no `m` flag). -/
def litHere (lit : List Char) (l : List Char) : Bool :=
  match lit, l with
  | [], _ => true
  | _ :: _, [] => false
  | a :: as, b :: bs => a == b && litHere as bs

/-- Alternation `(?:Chromium|Firefox|Webkit|Finished|$)` at this position. -/
def isLitAt (l : List Char) : Bool :=
  l.isEmpty || litHere "Chromium".toList l || litHere "Firefox".toList l ||
  litHere "Webkit".toList l || litHere "Finished".toList l

/-- Existence of a split for `\s*(?:Chromium|Firefox|Webkit|Finished|$)`. -/
def wsStarLit : List Char → Bool
  | [] => true
  | c :: cs => isLitAt (c :: cs) || (wsChar c && wsStarLit cs)

/-- The lookahead `(?=\n\s*(?:Chromium|Firefox|Webkit|Finished|$))`. -/
def termAhead : List Char → Bool
  | [] => false
  | c :: cs => c == '\n' && wsStarLit cs

/-- Lazy `(.+?)` followed by the literal `\n`: the shortest non-empty run of
dot-chars whose next character is a newline. Returns (capture, rest after the
newline). -/
def grabTitle : List Char → Option (List Char × List Char)
  | [] => none
  | c :: cs =>
    if dotChar c then
      match cs with
      | [] => none
      | d :: rest =>
        if d == '\n' then some ([c], rest)
        else
          match grabTitle cs with
          | some (t, r) => some (c :: t, r)
          | none => none
    else none

/-- Lazy `([\s\S]+?)` followed by the terminator lookahead: the shortest
non-empty body after which `termAhead` holds. Returns (capture, rest). -/
def grabBody : List Char → Option (List Char × List Char)
  | [] => none
  | c :: cs =>
    if termAhead cs then some ([c], cs)
    else
      match grabBody cs with
      | some (b, r) => some (c :: b, r)
      | none => none

/-- Title then body. -/
def grabTB (l : List Char) : Option (List Char × List Char × List Char) :=
  match grabTitle l with
  | some (t, r) =>
    match grabBody r with
    | some (b, r2) => some (t, b, r2)
    | none => none
  | none => none

/-- Greedy tail of `\s+` before the title, with backtracking into shorter
whitespace runs when title/body matching fails further right. -/
def wsMoreTB : List Char → Option (List Char × List Char × List Char)
  | [] => none
  | c :: cs =>
    if wsChar c then
      match wsMoreTB cs with
      | some r => some r
      | none => grabTB (c :: cs)
    else grabTB (c :: cs)

/-- Match of the failure-block pattern right after a `❌`:
`\s+(.+?)\n([\s\S]+?)(?=...)`. Returns (title, body, rest after the match). -/
def matchFailure : List Char → Option (List Char × List Char × List Char)
  | [] => none
  | c :: cs => if wsChar c then wsMoreTB cs else none

/-- Fuel-indexed scan modelling the `failureRegex.exec` loop: attempt the
pattern at each position from left to right, continuing after each match. -/
def scanFFuel : Nat → List Char → List (List Char × List Char)
  | 0, _ => []
  | _ + 1, [] => []
  | f + 1, c :: cs =>
    if c == '❌' then
      match matchFailure cs with
      | some (t, b, rest) => (t, b) :: scanFFuel f rest
      | none => scanFFuel f cs
    else scanFFuel f cs

/-- All failure blocks of the cleaned output, in match order. -/
def scanFailures (l : List Char) : List (List Char × List Char) :=
  scanFFuel l.length l

/-- Model of `failedTestFullName.split(">").pop()?.trim() || failedTestFullName`. -/
def shortTitle (full : List Char) : List Char :=
  let seg := jsTrim ((jsSplit '>' full).getLastD [])
  if seg.isEmpty then full else seg

/-- One iteration of the failure-details loop of `parseTestResults`. -/
def applyFailure (m : RMap) (blk : List Char × List Char) : RMap :=
  let full := jsTrim blk.1
  let short := shortTitle full
  if mapHas m short then mapSetMessage m short (jsTrim blk.2) else m

/-- The pass/fail map built by the per-line loop (steps 1-4 of the parser). -/
def phase1Map (output : List Char) : RMap :=
  (jsSplit '\n' (cleanAnsi output)).foldl processLine []

/-- Model of `TestResultParser.parseTestResults`. -/
def parseTestResults (output : List Char) : RMap :=
  (scanFailures (cleanAnsi output)).foldl applyFailure (phase1Map output)

example : parseTestResults "   ✓ test one\n   ✓ test two".toList =
    [("test one".toList, ⟨true, none⟩), ("test two".toList, ⟨true, none⟩)] := by
  decide

example : parseTestResults "".toList = [] := by decide

example : parseTestResults "   \x1b[32m✓\x1b[0m test with ANSI".toList =
    [("test with ANSI".toList, ⟨true, none⟩)] := by decide

example : parseTestResults "   𐄂 t\n❌ s > t\nboom\n".toList =
    [("t".toList, ⟨false, some "boom".toList⟩)] := by decide

example : parseTestResults "   𐄂 t\n❌ s > t\nboom".toList =
    [("t".toList, ⟨false, none⟩)] := by decide

example : parseTestResults "   ✓ test one\n      Very indented error message\n      that spans multiple lines\n   ✓ test two".toList =
    [("test one".toList, ⟨true, none⟩), ("test two".toList, ⟨true, none⟩)] := by
  decide

example : parseTestResults "   ✓ test one\n      - wrapped detail\n   ✓ test two".toList =
    [("test one".toList, ⟨true, none⟩), ("wrapped detail".toList, ⟨false, none⟩),
     ("test two".toList, ⟨true, none⟩)] := by decide

example : parseTestResults "   \x1b[2J✓ x".toList = [] := by decide

/-
Lemmas about the result-map operations.
-/

theorem mapHas_mapSet_self (m : RMap) (k : List Char) (v : TestResult) :
    mapHas (mapSet m k v) k = true := by
  unfold mapSet
  by_cases h : mapHas m k = true
  · simp only [h, if_true]
    rcases List.any_eq_true.mp h with ⟨e, he, hek⟩
    refine List.any_eq_true.mpr ⟨(k, v), ?_, by simp⟩
    refine List.mem_map.mpr ⟨e, he, ?_⟩
    simp [hek]
  · simp only [eq_self_iff_true, Bool.not_eq_true] at h
    rw [if_neg (by simp [h])]
    simp [mapHas, List.any_append]

theorem mapHas_mapSet_mono (m : RMap) (k q : List Char) (v : TestResult)
    (hq : mapHas m q = true) : mapHas (mapSet m k v) q = true := by
  unfold mapSet
  by_cases h : mapHas m k = true
  · simp only [h, if_true]
    rcases List.any_eq_true.mp hq with ⟨e, he, heq⟩
    by_cases hek : e.1 == k
    · refine List.any_eq_true.mpr ⟨(k, v), List.mem_map.mpr ⟨e, he, by simp [hek]⟩, ?_⟩
      have h1 : e.1 = k := by simpa using hek
      have h2 : e.1 = q := by simpa using heq
      simp [← h1, h2]
    · refine List.any_eq_true.mpr ⟨e, List.mem_map.mpr ⟨e, he, by simp [hek]⟩, heq⟩
  · simp only [eq_self_iff_true, Bool.not_eq_true] at h
    simp only [h, if_false]
    simp [mapHas, List.any_append] at hq ⊢
    exact Or.inl hq

theorem processLine_mono (m : RMap) (line : List Char) (q : List Char)
    (hq : mapHas m q = true) : mapHas (processLine m line) q = true := by
  cases h : lineEntry line with
  | none => simpa [processLine, h] using hq
  | some kv =>
    obtain ⟨k, v⟩ := kv
    simp only [processLine, h]
    exact mapHas_mapSet_mono m k q v hq

theorem foldl_processLine_mono (ls : List (List Char)) (m : RMap) (q : List Char)
    (hq : mapHas m q = true) : mapHas (ls.foldl processLine m) q = true := by
  induction ls generalizing m with
  | nil => exact hq
  | cons a tl ih => exact ih (processLine m a) (processLine_mono m a q hq)

theorem foldl_processLine_has (ls : List (List Char)) (m : RMap)
    (line k : List Char) (v : TestResult) (hmem : line ∈ ls)
    (hent : lineEntry line = some (k, v)) :
    mapHas (ls.foldl processLine m) k = true := by
  induction ls generalizing m with
  | nil => cases hmem
  | cons a tl ih =>
    rcases List.mem_cons.mp hmem with h | h
    · subst h
      refine foldl_processLine_mono tl (processLine m line) k ?_
      simp only [processLine, hent]
      exact mapHas_mapSet_self m k v
    · exact ih (processLine m a) h

theorem msmEntry_fst (e : List Char × TestResult) (k msg : List Char) :
    (if e.1 == k then (e.1, { e.2 with message := some msg }) else e).1 = e.1 := by
  split <;> rfl

theorem msmEntry_passed (e : List Char × TestResult) (k msg : List Char) :
    (if e.1 == k then (e.1, { e.2 with message := some msg }) else e).2.passed =
      e.2.passed := by
  split <;> rfl

theorem mapHas_mapSetMessage (m : RMap) (k msg q : List Char) :
    mapHas (mapSetMessage m k msg) q = mapHas m q := by
  induction m with
  | nil => rfl
  | cons e tl ih =>
    simp only [mapSetMessage, List.map_cons, mapHas, List.any_cons] at ih ⊢
    rw [msmEntry_fst, ih]

theorem keysOf_mapSetMessage (m : RMap) (k msg : List Char) :
    keysOf (mapSetMessage m k msg) = keysOf m := by
  induction m with
  | nil => rfl
  | cons e tl ih =>
    simp only [mapSetMessage, keysOf, List.map_cons] at ih ⊢
    rw [msmEntry_fst, ih]

theorem mapGet_passed_mapSetMessage (m : RMap) (k msg q : List Char) :
    (mapGet (mapSetMessage m k msg) q).map (fun r => r.passed) =
      (mapGet m q).map (fun r => r.passed) := by
  induction m with
  | nil => rfl
  | cons e tl ih =>
    simp only [mapSetMessage] at ih ⊢
    simp only [List.map_cons, mapGet, List.find?_cons]
    rw [msmEntry_fst]
    by_cases heq : (e.1 == q) = true
    · simp only [heq]
      simp only [Option.map]
      congr 1
      split <;> rfl
    · simp only [Bool.not_eq_true] at heq
      simp only [heq]
      exact ih

theorem keysOf_applyFailure (m : RMap) (blk : List Char × List Char) :
    keysOf (applyFailure m blk) = keysOf m := by
  unfold applyFailure
  by_cases h : mapHas m (shortTitle (jsTrim blk.1)) = true
  · simp [h, keysOf_mapSetMessage]
  · simp only [eq_self_iff_true, Bool.not_eq_true] at h
    simp [h]

theorem mapGet_passed_applyFailure (m : RMap) (blk : List Char × List Char)
    (q : List Char) :
    (mapGet (applyFailure m blk) q).map (fun r => r.passed) =
      (mapGet m q).map (fun r => r.passed) := by
  unfold applyFailure
  by_cases h : mapHas m (shortTitle (jsTrim blk.1)) = true
  · simp [h, mapGet_passed_mapSetMessage]
  · simp only [eq_self_iff_true, Bool.not_eq_true] at h
    simp [h]

theorem keysOf_foldl_applyFailure (bs : List (List Char × List Char)) (m : RMap) :
    keysOf (bs.foldl applyFailure m) = keysOf m := by
  induction bs generalizing m with
  | nil => rfl
  | cons b tl ih => rw [List.foldl_cons, ih, keysOf_applyFailure]

theorem mapGet_passed_foldl_applyFailure (bs : List (List Char × List Char))
    (m : RMap) (q : List Char) :
    (mapGet (bs.foldl applyFailure m) q).map (fun r => r.passed) =
      (mapGet m q).map (fun r => r.passed) := by
  induction bs generalizing m with
  | nil => rfl
  | cons b tl ih => rw [List.foldl_cons, ih, mapGet_passed_applyFailure]

theorem mapHas_keysOf (m : RMap) (q : List Char) :
    mapHas m q = (keysOf m).contains q := by
  induction m with
  | nil => rfl
  | cons e tl ih =>
    simp only [mapHas, keysOf, List.any_cons, List.map_cons, List.contains_cons] at ih ⊢
    rw [ih]
    by_cases h : e.1 = q
    · simp [h]
    · have h1 : (e.1 == q) = false := by simpa using h
      have h2 : (q == e.1) = false := by simpa using fun hh => h hh.symm
      simp [h1, h2]

theorem mapHas_foldl_applyFailure (bs : List (List Char × List Char)) (m : RMap)
    (q : List Char) : mapHas (bs.foldl applyFailure m) q = mapHas m q := by
  rw [mapHas_keysOf, mapHas_keysOf, keysOf_foldl_applyFailure]

theorem applyFailure_nil (blk : List Char × List Char) :
    applyFailure [] blk = [] := rfl

theorem foldl_applyFailure_nil (bs : List (List Char × List Char)) :
    bs.foldl applyFailure [] = [] := by
  induction bs with
  | nil => rfl
  | cons b tl ih => rw [List.foldl_cons, applyFailure_nil, ih]

theorem foldl_processLine_none (ls : List (List Char)) (m : RMap)
    (h : ∀ l ∈ ls, lineEntry l = none) : ls.foldl processLine m = m := by
  induction ls generalizing m with
  | nil => rfl
  | cons a tl ih =>
    rw [List.foldl_cons]
    have ha : processLine m a = m := by
      unfold processLine
      rw [h a (List.mem_cons_self a tl)]
    rw [ha]
    exact ih m (fun l hl => h l (List.mem_cons_of_mem a hl))

theorem jsTrim_not_empty (l : List Char) (c : Char) (hc : wsChar c = false)
    (hmem : c ∈ l) : (jsTrim l).isEmpty = false := by
  by_contra hcon
  simp only [Bool.not_eq_false, List.isEmpty_iff] at hcon
  unfold jsTrim at hcon
  rw [List.reverse_eq_nil_iff] at hcon
  have h1 : ∀ x ∈ (l.dropWhile wsChar).reverse, wsChar x := by
    intro x hx
    exact List.dropWhile_eq_nil_iff.mp hcon x hx
  have h2 : ∀ x ∈ l.dropWhile wsChar, wsChar x := by
    intro x hx
    exact h1 x (List.mem_reverse.mpr hx)
  have h3 : ∀ x ∈ l, wsChar x := by
    intro x hx
    rw [← List.takeWhile_append_dropWhile (p := wsChar) (l := l)] at hx
    rcases List.mem_append.mp hx with h | h
    · exact List.mem_takeWhile_imp h
    · exact h2 x h
  have := h3 c hmem
  rw [hc] at this
  cases this

/-
Shape lemmas for the result-line matcher: a line of the canonical shape
`whitespace+ , one non-whitespace code point , whitespace+ , rest`
(with `rest` non-empty, starting with a non-whitespace character and free of
line terminators) matches with group 1 the single code point and group 2 the
rest.
-/

theorem dotPlus_some (r0 : Char) (rtail : List Char)
    (hdot : (r0 :: rtail).all dotChar = true) :
    dotPlus (r0 :: rtail) = some (r0 :: rtail) := by
  simp [dotPlus, hdot]

theorem wsMoreDot_app (w : List Char) (hw : w.all wsChar = true)
    (r0 : Char) (rtail : List Char) (hr0 : wsChar r0 = false)
    (hdot : (r0 :: rtail).all dotChar = true) :
    wsMoreDot (w ++ r0 :: rtail) = some (r0 :: rtail) := by
  induction w with
  | nil =>
    simp only [List.nil_append, wsMoreDot, hr0]
    simp [dotPlus_some r0 rtail hdot]
  | cons x w ih =>
    rw [List.all_cons, Bool.and_eq_true] at hw
    simp only [List.cons_append, wsMoreDot, hw.1, if_true, List.append_eq]
    rw [ih hw.2]

theorem wsPlusDot_app (a2 : Char) (w2 : List Char)
    (hw2 : (a2 :: w2).all wsChar = true)
    (r0 : Char) (rtail : List Char) (hr0 : wsChar r0 = false)
    (hdot : (r0 :: rtail).all dotChar = true) :
    wsPlusDot ((a2 :: w2) ++ r0 :: rtail) = some (r0 :: rtail) := by
  rw [List.all_cons, Bool.and_eq_true] at hw2
  simp only [List.cons_append, wsPlusDot, hw2.1, if_true]
  exact wsMoreDot_app w2 hw2.2 r0 rtail hr0 hdot

theorem symRest_shape (c : Char) (hc : wsChar c = false)
    (a2 : Char) (w2 : List Char) (hw2 : (a2 :: w2).all wsChar = true)
    (r0 : Char) (rtail : List Char) (hr0 : wsChar r0 = false)
    (hdot : (r0 :: rtail).all dotChar = true) :
    symRest (c :: ((a2 :: w2) ++ r0 :: rtail)) = some (some c, r0 :: rtail) := by
  simp only [symRest]
  rw [wsPlusDot_app a2 w2 hw2 r0 rtail hr0 hdot]

theorem wsMoreSym_app (w : List Char) (hw : w.all wsChar = true)
    (c : Char) (hc : wsChar c = false)
    (a2 : Char) (w2 : List Char) (hw2 : (a2 :: w2).all wsChar = true)
    (r0 : Char) (rtail : List Char) (hr0 : wsChar r0 = false)
    (hdot : (r0 :: rtail).all dotChar = true) :
    wsMoreSym (w ++ c :: ((a2 :: w2) ++ r0 :: rtail)) = some (some c, r0 :: rtail) := by
  induction w with
  | nil =>
    simp only [List.nil_append, wsMoreSym, hc, if_false]
    exact symRest_shape c hc a2 w2 hw2 r0 rtail hr0 hdot
  | cons x w ih =>
    rw [List.all_cons, Bool.and_eq_true] at hw
    simp only [List.cons_append, wsMoreSym, hw.1, if_true, List.append_eq]
    simp only [List.cons_append] at ih
    rw [ih hw.2]

theorem lineMatch_shape (a1 : Char) (w1 : List Char)
    (hw1 : (a1 :: w1).all wsChar = true)
    (c : Char) (hc : wsChar c = false)
    (a2 : Char) (w2 : List Char) (hw2 : (a2 :: w2).all wsChar = true)
    (r0 : Char) (rtail : List Char) (hr0 : wsChar r0 = false)
    (hdot : (r0 :: rtail).all dotChar = true) :
    lineMatch ((a1 :: w1) ++ c :: ((a2 :: w2) ++ r0 :: rtail)) =
      some (some c, r0 :: rtail) := by
  rw [List.all_cons, Bool.and_eq_true] at hw1
  simp only [List.cons_append, lineMatch, hw1.1, if_true]
  exact wsMoreSym_app w1 hw1.2 c hc a2 w2 hw2 r0 rtail hr0 hdot

theorem lineEntry_shape (a1 : Char) (w1 : List Char)
    (hw1 : (a1 :: w1).all wsChar = true)
    (c : Char) (hc : wsChar c = false)
    (a2 : Char) (w2 : List Char) (hw2 : (a2 :: w2).all wsChar = true)
    (r0 : Char) (rtail : List Char) (hr0 : wsChar r0 = false)
    (hdot : (r0 :: rtail).all dotChar = true) :
    lineEntry ((a1 :: w1) ++ c :: ((a2 :: w2) ++ r0 :: rtail)) =
      some (jsTrim (r0 :: rtail), ⟨c == '✓', none⟩) := by
  have hmem : c ∈ (a1 :: w1) ++ c :: ((a2 :: w2) ++ r0 :: rtail) :=
    List.mem_append_right _ (List.mem_cons_self _ _)
  unfold lineEntry
  rw [jsTrim_not_empty _ c hc hmem]
  rw [lineMatch_shape a1 w1 hw1 c hc a2 w2 hw2 r0 rtail hr0 hdot]
  rfl

/-
Controlled one-step unfolding lemmas for the matchers (the recursive calls
stay folded because their arguments are variables).
-/

theorem wsMoreDot_cons_ws (c : Char) (cs : List Char) (h : wsChar c = true) :
    wsMoreDot (c :: cs) =
      match wsMoreDot cs with
      | some r => some r
      | none => dotPlus (c :: cs) := by
  simp [wsMoreDot, h]

theorem wsMoreDot_cons_nonws (c : Char) (cs : List Char) (h : wsChar c = false) :
    wsMoreDot (c :: cs) = dotPlus (c :: cs) := by
  simp [wsMoreDot, h]

theorem wsPlusDot_cons_ws (c : Char) (cs : List Char) (h : wsChar c = true) :
    wsPlusDot (c :: cs) = wsMoreDot cs := by
  simp [wsPlusDot, h]

theorem symRest_cons (c : Char) (cs : List Char) :
    symRest (c :: cs) =
      match wsPlusDot cs with
      | some r => some (some c, r)
      | none =>
        match wsPlusDot (c :: cs) with
        | some r => some (none, r)
        | none => none := rfl

theorem wsMoreSym_cons_ws (c : Char) (cs : List Char) (h : wsChar c = true) :
    wsMoreSym (c :: cs) =
      match wsMoreSym cs with
      | some r => some r
      | none => symRest (c :: cs) := by
  simp [wsMoreSym, h]

theorem wsMoreSym_cons_nonws (c : Char) (cs : List Char) (h : wsChar c = false) :
    wsMoreSym (c :: cs) = symRest (c :: cs) := by
  simp [wsMoreSym, h]

theorem lineMatch_cons_ws (c : Char) (cs : List Char) (h : wsChar c = true) :
    lineMatch (c :: cs) = wsMoreSym cs := by
  simp [lineMatch, h]

theorem lineMatch_cons_nonws (c : Char) (cs : List Char) (h : wsChar c = false) :
    lineMatch (c :: cs) = none := by
  simp [lineMatch, h]

/-
Skip lemmas: a line whose first non-whitespace token is at least two
characters long (two adjacent non-whitespace characters follow the leading
whitespace) either fails to match or matches with an empty first capture;
in both cases the per-line loop records nothing.
-/

theorem wsPlusDot_nonws (x : Char) (l : List Char) (hx : wsChar x = false) :
    wsPlusDot (x :: l) = none := by
  simp [wsPlusDot, hx]

theorem symRest_twoNonWs (c1 c2 : Char) (rest : List Char)
    (h1 : wsChar c1 = false) (h2 : wsChar c2 = false) :
    symRest (c1 :: c2 :: rest) = none := by
  simp only [symRest]
  rw [wsPlusDot_nonws c2 rest h2, wsPlusDot_nonws c1 (c2 :: rest) h1]

theorem dotPlus_app_none (pre l : List Char) (h : l.all dotChar = false) :
    dotPlus (pre ++ l) = none := by
  simp [dotPlus, List.all_append, h]

theorem wsMoreDot_ws_none (w : List Char) (hw : w.all wsChar = true)
    (c1 c2 : Char) (rest : List Char) (h1 : wsChar c1 = false)
    (hdot : (c1 :: c2 :: rest).all dotChar = false) :
    wsMoreDot (w ++ c1 :: c2 :: rest) = none := by
  induction w with
  | nil =>
    simp only [List.nil_append, wsMoreDot, h1, if_false]
    exact dotPlus_app_none [] _ hdot
  | cons x w ih =>
    rw [List.all_cons, Bool.and_eq_true] at hw
    simp only [List.cons_append, wsMoreDot, hw.1, if_true, List.append_eq]
    rw [ih hw.2]
    exact dotPlus_app_none (x :: w) _ hdot

theorem wsPlusDot_ws_none (w : List Char) (hw : w.all wsChar = true)
    (c1 c2 : Char) (rest : List Char) (h1 : wsChar c1 = false)
    (hdot : (c1 :: c2 :: rest).all dotChar = false) :
    wsPlusDot (w ++ c1 :: c2 :: rest) = none := by
  cases w with
  | nil => exact wsPlusDot_nonws c1 (c2 :: rest) h1
  | cons x w =>
    rw [List.all_cons, Bool.and_eq_true] at hw
    simp only [List.cons_append, wsPlusDot, hw.1, if_true]
    exact wsMoreDot_ws_none w hw.2 c1 c2 rest h1 hdot

theorem wsMoreSym_ws_none (w : List Char) (hw : w.all wsChar = true)
    (c1 c2 : Char) (rest : List Char) (h1 : wsChar c1 = false)
    (h2 : wsChar c2 = false)
    (hdot : (c1 :: c2 :: rest).all dotChar = false) :
    wsMoreSym (w ++ c1 :: c2 :: rest) = none := by
  induction w with
  | nil =>
    simp only [List.nil_append, wsMoreSym, h1, if_false]
    exact symRest_twoNonWs c1 c2 rest h1 h2
  | cons x w ih =>
    rw [List.all_cons, Bool.and_eq_true] at hw
    simp only [List.cons_append, wsMoreSym, hw.1, if_true, List.append_eq]
    rw [ih hw.2]
    simp only [symRest]
    rw [wsPlusDot_ws_none w hw.2 c1 c2 rest h1 hdot]
    rw [show x :: (w ++ c1 :: c2 :: rest) = (x :: w) ++ c1 :: c2 :: rest from rfl]
    rw [wsPlusDot_ws_none (x :: w) (by simp [hw.1, hw.2]) c1 c2 rest h1 hdot]

theorem symRest_ws_twoNonWs_dot (x : Char) (hx : wsChar x = true)
    (c1 c2 : Char) (rest : List Char) (h1 : wsChar c1 = false)
    (hdot : (c1 :: c2 :: rest).all dotChar = true) :
    symRest (x :: c1 :: c2 :: rest) = some (none, c1 :: c2 :: rest) := by
  rw [symRest_cons, wsPlusDot_nonws c1 (c2 :: rest) h1,
    wsPlusDot_cons_ws x _ hx, wsMoreDot_cons_nonws c1 _ h1,
    dotPlus_some c1 (c2 :: rest) hdot]

theorem wsMoreSym_ws_dot (w : List Char) (hw : w.all wsChar = true)
    (hne : w ≠ []) (c1 c2 : Char) (rest : List Char) (h1 : wsChar c1 = false)
    (h2 : wsChar c2 = false)
    (hdot : (c1 :: c2 :: rest).all dotChar = true) :
    wsMoreSym (w ++ c1 :: c2 :: rest) = some (none, c1 :: c2 :: rest) := by
  induction w with
  | nil => cases hne rfl
  | cons x w ih =>
    rw [List.all_cons, Bool.and_eq_true] at hw
    rw [List.cons_append, wsMoreSym_cons_ws x _ hw.1]
    cases w with
    | nil =>
      have hA : wsMoreSym ([] ++ c1 :: c2 :: rest) = none := by
        rw [List.nil_append, wsMoreSym_cons_nonws c1 _ h1,
          symRest_twoNonWs c1 c2 rest h1 h2]
      rw [hA]
      simp only [List.nil_append]
      exact symRest_ws_twoNonWs_dot x hw.1 c1 c2 rest h1 hdot
    | cons y w2 =>
      rw [ih hw.2 (by simp)]

theorem lineEntry_twoNonWs (w : List Char) (hw : w.all wsChar = true)
    (c1 c2 : Char) (rest : List Char) (h1 : wsChar c1 = false)
    (h2 : wsChar c2 = false) :
    lineEntry (w ++ c1 :: c2 :: rest) = none := by
  unfold lineEntry
  by_cases hb : (jsTrim (w ++ c1 :: c2 :: rest)).isEmpty = true
  · rw [hb]
    rfl
  · simp only [Bool.not_eq_true] at hb
    rw [hb]
    simp only [Bool.false_eq_true, if_false]
    cases w with
    | nil =>
      rw [List.nil_append, lineMatch_cons_nonws c1 _ h1]
    | cons a w =>
      rw [List.all_cons, Bool.and_eq_true] at hw
      rw [List.cons_append, lineMatch_cons_ws a _ hw.1]
      cases w with
      | nil =>
        rw [List.nil_append, wsMoreSym_cons_nonws c1 _ h1,
          symRest_twoNonWs c1 c2 rest h1 h2]
      | cons b w2 =>
        by_cases hdot : (c1 :: c2 :: rest).all dotChar = true
        · rw [wsMoreSym_ws_dot (b :: w2) hw.2 (by simp) c1 c2 rest h1 h2 hdot]
        · simp only [Bool.not_eq_true] at hdot
          rw [wsMoreSym_ws_none (b :: w2) hw.2 c1 c2 rest h1 h2 hdot]

theorem processLine_twoNonWs (m : RMap) (w : List Char) (hw : w.all wsChar = true)
    (c1 c2 : Char) (rest : List Char) (h1 : wsChar c1 = false)
    (h2 : wsChar c2 = false) :
    processLine m (w ++ c1 :: c2 :: rest) = m := by
  unfold processLine
  rw [lineEntry_twoNonWs w hw c1 c2 rest h1 h2]

/-- C1: every line of the ANSI-cleaned input with the result-line shape
(leading whitespace, exactly one non-whitespace code point, whitespace,
non-empty remaining text) is recorded under the trimmed remaining text with
`passed` true exactly when the symbol is the check glyph `✓`; and the
round-trip input with the two `✓` lines yields a map of size 2 with both
entries passed. -/
theorem c1_result_lines (output : List Char) (m : RMap)
    (a1 : Char) (w1 : List Char) (c : Char) (a2 : Char) (w2 : List Char)
    (r0 : Char) (rtail : List Char)
    (hw1 : (a1 :: w1).all wsChar = true) (hc : wsChar c = false)
    (hw2 : (a2 :: w2).all wsChar = true) (hr0 : wsChar r0 = false)
    (hdot : (r0 :: rtail).all dotChar = true) :
    lineMatch ((a1 :: w1) ++ c :: ((a2 :: w2) ++ r0 :: rtail)) =
      some (some c, r0 :: rtail) ∧
    processLine m ((a1 :: w1) ++ c :: ((a2 :: w2) ++ r0 :: rtail)) =
      mapSet m (jsTrim (r0 :: rtail)) ⟨c == '✓', none⟩ ∧
    ((a1 :: w1) ++ c :: ((a2 :: w2) ++ r0 :: rtail) ∈
        jsSplit '\n' (cleanAnsi output) →
      mapHas (parseTestResults output) (jsTrim (r0 :: rtail)) = true) ∧
    parseTestResults "   ✓ test one\n   ✓ test two".toList =
      [("test one".toList, ⟨true, none⟩), ("test two".toList, ⟨true, none⟩)] := by
  refine ⟨lineMatch_shape a1 w1 hw1 c hc a2 w2 hw2 r0 rtail hr0 hdot, ?_, ?_, by decide⟩
  · unfold processLine
    rw [lineEntry_shape a1 w1 hw1 c hc a2 w2 hw2 r0 rtail hr0 hdot]
  · intro hmem
    unfold parseTestResults
    rw [mapHas_foldl_applyFailure]
    exact foldl_processLine_has _ [] _ _ _ hmem
      (lineEntry_shape a1 w1 hw1 c hc a2 w2 hw2 r0 rtail hr0 hdot)

/-- Witness for C1 at the concrete line `" ✓ x"` inside an arbitrary parse. -/
theorem c1_result_lines_witness :
    lineMatch (([' ']) ++ '✓' :: (([' ']) ++ 'x' :: [])) = some (some '✓', ['x']) ∧
    processLine [] (([' ']) ++ '✓' :: (([' ']) ++ 'x' :: [])) =
      mapSet [] (jsTrim ['x']) ⟨'✓' == '✓', none⟩ ∧
    (([' ']) ++ '✓' :: (([' ']) ++ 'x' :: []) ∈
        jsSplit '\n' (cleanAnsi "".toList) →
      mapHas (parseTestResults "".toList) (jsTrim ['x']) = true) ∧
    parseTestResults "   ✓ test one\n   ✓ test two".toList =
      [("test one".toList, ⟨true, none⟩), ("test two".toList, ⟨true, none⟩)] :=
  c1_result_lines "".toList [] ' ' [] '✓' ' ' [] 'x' []
    (by decide) (by decide) (by decide) (by decide) (by decide)

/-- C8: an input none of whose (cleaned) lines matches the result-line
pattern parses to the empty map, and in particular the empty string parses to
the empty map; the parser is a total function, so no error is possible. -/
theorem c8_no_result_lines (output : List Char)
    (h : ∀ l ∈ jsSplit '\n' (cleanAnsi output), lineEntry l = none) :
    parseTestResults output = [] ∧ parseTestResults "".toList = [] := by
  constructor
  · have h1 : phase1Map output = [] := foldl_processLine_none _ [] h
    unfold parseTestResults
    rw [h1]
    exact foldl_applyFailure_nil _
  · decide

/-- Witness for C8 on a concrete input with prose lines and no result line. -/
theorem c8_no_result_lines_witness :
    parseTestResults "running tests\nall done".toList = [] ∧
    parseTestResults "".toList = [] :=
  c8_no_result_lines "running tests\nall done".toList (by decide)

/-- C9 counterexample: a deeply indented continuation line whose first token
is the single character `-` (as occurs in wrapped diff/error detail) does
match the result-line pattern, so its trailing text `wrapped detail` appears
as a spurious key of the returned map, contradicting the claim that no line
of continuation text ever appears as a key. -/
theorem c9_counterexample :
    parseTestResults "   ✓ test one\n      - wrapped detail\n   ✓ test two".toList =
      [("test one".toList, ⟨true, none⟩), ("wrapped detail".toList, ⟨false, none⟩),
       ("test two".toList, ⟨true, none⟩)] ∧
    mapHas (parseTestResults
        "   ✓ test one\n      - wrapped detail\n   ✓ test two".toList)
      "wrapped detail".toList = true := by
  constructor
  · decide
  · decide

/-- C9 amended: an indented continuation line is skipped (contributes no map
entry) whenever its first non-whitespace token is at least two characters
long — i.e. two adjacent non-whitespace characters follow the leading
whitespace; continuation lines whose first token is a single code point
followed by whitespace and text do match the result-line shape and do
contribute a key.  The spec's own mixed-indentation sample (whose
continuation lines start with the multi-character tokens `Very` and `that`)
therefore yields exactly the two real keys. -/
theorem c9_amended (m : RMap) (w : List Char) (hw : w.all wsChar = true)
    (c1 c2 : Char) (rest : List Char)
    (h1 : wsChar c1 = false) (h2 : wsChar c2 = false) :
    processLine m (w ++ c1 :: c2 :: rest) = m ∧
    parseTestResults
        "   ✓ test one\n      Very indented error message\n      that spans multiple lines\n   ✓ test two".toList =
      [("test one".toList, ⟨true, none⟩), ("test two".toList, ⟨true, none⟩)] := by
  exact ⟨processLine_twoNonWs m w hw c1 c2 rest h1 h2, by decide⟩

/-- Witness for the amended C9 on the concrete continuation line
`"  error detail"`. -/
theorem c9_amended_witness :
    processLine [("test one".toList, ⟨true, none⟩)]
        ([' ', ' '] ++ 'e' :: 'r' :: "ror detail".toList) =
      [("test one".toList, ⟨true, none⟩)] ∧
    parseTestResults
        "   ✓ test one\n      Very indented error message\n      that spans multiple lines\n   ✓ test two".toList =
      [("test one".toList, ⟨true, none⟩), ("test two".toList, ⟨true, none⟩)] :=
  c9_amended [("test one".toList, ⟨true, none⟩)] [' ', ' ']
    (by decide) 'e' 'r' "ror detail".toList (by decide) (by decide)

/-- C10: the failure-details pass attaches a message without consulting the
`passed` flag: on an input whose `✓` line records `t` as passed and whose
`❌` block's final `>`-segment is the same `t`, the returned map holds the
entry `⟨passed := true, message := "boom"⟩`. -/
theorem c10_message_on_passed_entry :
    parseTestResults "   ✓ t\n❌ a > t\nboom\n".toList =
      [("t".toList, ⟨true, some "boom".toList⟩)] ∧
    mapGet (parseTestResults "   ✓ t\n❌ a > t\nboom\n".toList) "t".toList =
      some ⟨true, some "boom".toList⟩ := by
  constructor
  · decide
  · decide

/-
Claim C4 compares the code's ANSI handling with the spec's words.  The code
strips only SGR sequences (`ESC [ [0-9;]* m`); the spec speaks of "all ANSI
escape/control sequences".
-/

/-- Modelled from the spec: "Strip all ANSI escape/control sequences" — the
spec-side strip removes every CSI sequence `ESC [ <0x20-0x3F>* <0x40-0x7E>`,
not only the `m`-terminated SGR ones.  Used solely to state C4. -/
def csiBody (c : Char) : Bool :=
  decide (0x20 ≤ c.toNat) && decide (c.toNat ≤ 0x3f)

/-- Final byte of a CSI sequence. -/
def csiFinal (c : Char) : Bool :=
  decide (0x40 ≤ c.toNat) && decide (c.toNat ≤ 0x7e)

/-- After `ESC [`, consume parameter/intermediate bytes and a final byte. -/
def takeCsi : List Char → Option (List Char)
  | [] => none
  | c :: cs => if csiBody c then takeCsi cs else if csiFinal c then some cs else none

/-- Fuel-indexed pass of the spec-side full CSI removal. -/
def specStripFuel : Nat → List Char → List Char
  | 0, l => l
  | _ + 1, [] => []
  | f + 1, c :: cs =>
    if c == '\x1b' then
      match cs with
      | '[' :: cs2 =>
        match takeCsi cs2 with
        | some rest => specStripFuel f rest
        | none => c :: specStripFuel f cs
      | _ => c :: specStripFuel f cs
    else c :: specStripFuel f cs

/-- Modelled from the spec: the input with every ANSI escape/control sequence
(CSI form) removed. -/
def specStripAllAnsi (l : List Char) : List Char :=
  specStripFuel l.length l

theorem takeParams_app (params rest : List Char)
    (hp : params.all sgrParam = true) :
    takeParams (params ++ 'm' :: rest) = some rest := by
  induction params with
  | nil =>
    rw [List.nil_append]
    simp [takeParams, show sgrParam 'm' = false from by decide]
  | cons c ps ih =>
    rw [List.all_cons, Bool.and_eq_true] at hp
    simp only [List.cons_append, takeParams, hp.1, if_true]
    exact ih hp.2

theorem takeParams_length (l r : List Char) (h : takeParams l = some r) :
    r.length ≤ l.length := by
  induction l generalizing r with
  | nil => cases h
  | cons c cs ih =>
    by_cases hc : sgrParam c = true
    · simp only [takeParams, hc, if_true] at h
      exact Nat.le_succ_of_le (ih r h)
    · simp only [Bool.not_eq_true] at hc
      simp only [takeParams, hc, Bool.false_eq_true, if_false] at h
      by_cases hm : (c == 'm') = true
      · rw [hm, if_pos rfl] at h
        cases h
        exact Nat.le_succ_of_le (Nat.le_refl _)
      · simp only [Bool.not_eq_true] at hm
        rw [hm] at h
        cases h

theorem cleanAnsiFuel_nil (f : Nat) : cleanAnsiFuel f [] = [] := by
  cases f <;> rfl

theorem cleanAnsiFuel_succ_single (f : Nat) (c : Char) :
    cleanAnsiFuel (f + 1) [c] =
      if c == '\x1b' then c :: cleanAnsiFuel f [] else c :: cleanAnsiFuel f [] := rfl

theorem cleanAnsiFuel_succ_cons2 (f : Nat) (c d : Char) (cs2 : List Char) :
    cleanAnsiFuel (f + 1) (c :: d :: cs2) =
      if c == '\x1b' then
        (if d == '[' then
          match takeParams cs2 with
          | some rest => cleanAnsiFuel f rest
          | none => c :: cleanAnsiFuel f (d :: cs2)
        else c :: cleanAnsiFuel f (d :: cs2))
      else c :: cleanAnsiFuel f (d :: cs2) := rfl

theorem cleanAnsiFuel_congr (f : Nat) :
    ∀ (g : Nat) (l : List Char), l.length ≤ f → l.length ≤ g →
      cleanAnsiFuel f l = cleanAnsiFuel g l := by
  induction f with
  | zero =>
    intro g l hf _
    rw [Nat.le_zero, List.length_eq_zero] at hf
    subst hf
    rw [cleanAnsiFuel_nil, cleanAnsiFuel_nil]
  | succ f ih =>
    intro g l hf hg
    cases l with
    | nil => rw [cleanAnsiFuel_nil, cleanAnsiFuel_nil]
    | cons c cs =>
      cases g with
      | zero => simp at hg
      | succ g =>
        simp only [List.length_cons, Nat.succ_le_succ_iff] at hf hg
        cases cs with
        | nil =>
          rw [cleanAnsiFuel_succ_single f c, cleanAnsiFuel_succ_single g c]
          simp only [cleanAnsiFuel_nil]
        | cons d cs2 =>
          rw [cleanAnsiFuel_succ_cons2 f c d cs2, cleanAnsiFuel_succ_cons2 g c d cs2]
          by_cases hc : (c == '\x1b') = true
          · simp only [hc, if_true]
            by_cases hd : (d == '[') = true
            · simp only [hd, if_true]
              cases ht : takeParams cs2 with
              | some rest =>
                simp only [ht]
                have hr := takeParams_length cs2 rest ht
                have hlen : rest.length ≤ (d :: cs2).length := by
                  simp only [List.length_cons]
                  omega
                exact ih g rest (Nat.le_trans hlen hf) (Nat.le_trans hlen hg)
              | none =>
                simp only [ht]
                rw [ih g (d :: cs2) hf hg]
            · simp only [Bool.not_eq_true] at hd
              simp only [hd, Bool.false_eq_true, if_false]
              rw [ih g (d :: cs2) hf hg]
          · simp only [Bool.not_eq_true] at hc
            simp only [hc, Bool.false_eq_true, if_false]
            rw [ih g (d :: cs2) hf hg]

theorem cleanAnsi_sgr (params rest : List Char) (hp : params.all sgrParam = true) :
    cleanAnsi ('\x1b' :: '[' :: (params ++ 'm' :: rest)) = cleanAnsi rest := by
  unfold cleanAnsi
  have hL : ('\x1b' :: '[' :: (params ++ 'm' :: rest)).length
      = (params.length + rest.length + 2) + 1 := by
    simp [List.length_append]
    omega
  rw [hL, show ('\x1b' :: '[' :: (params ++ 'm' :: rest) : List Char)
      = '\x1b' :: '[' :: (params ++ 'm' :: rest) from rfl,
    cleanAnsiFuel_succ_cons2]
  rw [if_pos (by decide), if_pos (by decide)]
  rw [takeParams_app params rest hp]
  exact cleanAnsiFuel_congr _ _ rest (by omega) (Nat.le_refl _)

theorem cleanAnsi_cons_other (c : Char) (l : List Char)
    (hc : (c == '\x1b') = false) : cleanAnsi (c :: l) = c :: cleanAnsi l := by
  unfold cleanAnsi
  cases l with
  | nil =>
    rw [List.length_cons, cleanAnsiFuel_succ_single]
    simp only [hc, Bool.false_eq_true, if_false, cleanAnsiFuel_nil]
  | cons d cs2 =>
    rw [List.length_cons, cleanAnsiFuel_succ_cons2]
    simp only [hc, Bool.false_eq_true, if_false]

/-- C4 counterexample: the code strips only `m`-terminated (SGR) sequences,
so an input holding the non-SGR ANSI sequence `ESC [ 2 J` parses differently
from the same input with every ANSI sequence removed: the raw input yields an
empty map (the escape bytes break the result-line shape) while the fully
stripped input yields the entry for `x`.  Parsing is therefore not equivalent
to parsing the input with every ANSI escape/control sequence removed. -/
theorem c4_counterexample :
    parseTestResults "   \x1b[2J✓ x".toList = [] ∧
    parseTestResults (specStripAllAnsi "   \x1b[2J✓ x".toList) =
      [("x".toList, ⟨true, none⟩)] ∧
    parseTestResults "   \x1b[2J✓ x".toList ≠
      parseTestResults (specStripAllAnsi "   \x1b[2J✓ x".toList) := by
  refine ⟨by decide, by decide, by decide⟩

/-- C4 amended: before any pattern matching the parser strips exactly the SGR
ANSI sequences `ESC [ [0-9;]* m` — such a sequence is deleted wherever it
occurs and every other character is kept — and the ANSI-wrapped example line
yields exactly the entry for `test with ANSI`.  ANSI sequences with a final
byte other than `m` are not stripped. -/
theorem c4_amended (params rest : List Char) (hp : params.all sgrParam = true)
    (c : Char) (l : List Char) (hc : (c == '\x1b') = false) :
    cleanAnsi ('\x1b' :: '[' :: (params ++ 'm' :: rest)) = cleanAnsi rest ∧
    cleanAnsi (c :: l) = c :: cleanAnsi l ∧
    parseTestResults "   \x1b[32m✓\x1b[0m test with ANSI".toList =
      [("test with ANSI".toList, ⟨true, none⟩)] :=
  ⟨cleanAnsi_sgr params rest hp, cleanAnsi_cons_other c l hc, by decide⟩

/-- Witness for the amended C4 on the SGR sequence `ESC [ 3 2 m` and the
plain character `a`. -/
theorem c4_amended_witness :
    cleanAnsi ('\x1b' :: '[' :: ("32".toList ++ 'm' :: "ok".toList)) =
      cleanAnsi "ok".toList ∧
    cleanAnsi ('a' :: "bc".toList) = 'a' :: cleanAnsi "bc".toList ∧
    parseTestResults "   \x1b[32m✓\x1b[0m test with ANSI".toList =
      [("test with ANSI".toList, ⟨true, none⟩)] :=
  c4_amended "32".toList "ok".toList (by decide) 'a' "bc".toList (by decide)

/-
Lemmas about `jsSplit` and the short-title extraction of the failure pass.
-/

theorem jsSplit_ne_nil (sep : Char) (l : List Char) : jsSplit sep l ≠ [] := by
  cases l with
  | nil => simp [jsSplit]
  | cons c cs =>
    simp only [jsSplit]
    cases h : jsSplit sep cs with
    | nil => simp
    | cons r rs =>
      by_cases hc : (c == sep) = true <;> simp [hc]

theorem jsSplit_append_sep (sep : Char) (a b : List Char) :
    jsSplit sep (a ++ sep :: b) = jsSplit sep a ++ jsSplit sep b := by
  induction a with
  | nil =>
    simp only [List.nil_append, jsSplit]
    cases h : jsSplit sep b with
    | nil => exact absurd h (jsSplit_ne_nil sep b)
    | cons r rs => simp
  | cons c a2 ih =>
    rw [List.cons_append]
    simp only [jsSplit]
    rw [ih]
    cases h : jsSplit sep a2 with
    | nil => exact absurd h (jsSplit_ne_nil sep a2)
    | cons r rs =>
      by_cases hc : (c == sep) = true <;> simp [hc]

theorem jsSplit_no_sep (sep : Char) (l : List Char)
    (h : l.contains sep = false) : jsSplit sep l = [l] := by
  induction l with
  | nil => rfl
  | cons c cs ih =>
    simp only [List.contains_cons, Bool.or_eq_false_iff] at h
    have hcs : (c == sep) = false := by
      have h1 := h.1
      simp only [beq_eq_false_iff_ne] at h1 ⊢
      exact fun hq => h1 hq.symm
    simp only [jsSplit, ih h.2, hcs, Bool.false_eq_true, if_false]

theorem getLastD_append_ne_nil (l1 l2 : List (List Char)) (d : List Char)
    (h : l2 ≠ []) : (l1 ++ l2).getLastD d = l2.getLastD d := by
  induction l1 generalizing d with
  | nil => rfl
  | cons x l1t ih =>
    cases l2 with
    | nil => cases h rfl
    | cons y l2t =>
      rw [List.cons_append, List.getLastD_cons, ih x, List.getLastD_cons,
        List.getLastD_cons]

theorem shortTitle_last_segment (a b : List Char)
    (hb1 : b.contains '>' = false) (hb2 : (jsTrim b).isEmpty = false) :
    shortTitle (a ++ '>' :: b) = jsTrim b := by
  unfold shortTitle
  rw [jsSplit_append_sep '>' a b,
    getLastD_append_ne_nil _ _ _ (jsSplit_ne_nil '>' b),
    jsSplit_no_sep '>' b hb1]
  simp only [List.getLastD_cons, List.getLastD_nil, hb2, Bool.false_eq_true, if_false]

/-- C5: for every failure block, the short title is the trimmed final
`>`-segment of the trimmed full path; when that short title is a key of the
map the block's trimmed body is written as that entry's message, and when it
is not the map is returned unchanged; moreover the failure pass never adds or
removes keys and never alters any `passed` flag in the final parse. -/
theorem c5_failure_details (m : RMap) (title body output a b : List Char)
    (hb1 : b.contains '>' = false) (hb2 : (jsTrim b).isEmpty = false) :
    (mapHas m (shortTitle (jsTrim title)) = true →
      applyFailure m (title, body) =
        mapSetMessage m (shortTitle (jsTrim title)) (jsTrim body)) ∧
    (mapHas m (shortTitle (jsTrim title)) = false →
      applyFailure m (title, body) = m) ∧
    shortTitle (a ++ '>' :: b) = jsTrim b ∧
    keysOf (parseTestResults output) = keysOf (phase1Map output) ∧
    (∀ k, (mapGet (parseTestResults output) k).map (fun r => r.passed) =
      (mapGet (phase1Map output) k).map (fun r => r.passed)) := by
  refine ⟨?_, ?_, shortTitle_last_segment a b hb1 hb2, ?_, ?_⟩
  · intro h
    simp only [applyFailure, h, if_true]
  · intro h
    simp only [applyFailure, h, Bool.false_eq_true, if_false]
  · exact keysOf_foldl_applyFailure _ _
  · intro k
    exact mapGet_passed_foldl_applyFailure _ _ k

/-- Witness for C5 on a concrete map and failure block. -/
theorem c5_failure_details_witness :
    (mapHas [("t".toList, (⟨false, none⟩ : TestResult))]
        (shortTitle (jsTrim "a > t".toList)) = true →
      applyFailure [("t".toList, ⟨false, none⟩)] ("a > t".toList, "err".toList) =
        mapSetMessage [("t".toList, ⟨false, none⟩)]
          (shortTitle (jsTrim "a > t".toList)) (jsTrim "err".toList)) ∧
    (mapHas [("t".toList, (⟨false, none⟩ : TestResult))]
        (shortTitle (jsTrim "a > t".toList)) = false →
      applyFailure [("t".toList, ⟨false, none⟩)] ("a > t".toList, "err".toList) =
        [("t".toList, ⟨false, none⟩)]) ∧
    shortTitle ("a ".toList ++ '>' :: " t".toList) = jsTrim " t".toList ∧
    keysOf (parseTestResults "   ✓ t\n❌ a > t\ne\n".toList) =
      keysOf (phase1Map "   ✓ t\n❌ a > t\ne\n".toList) ∧
    (∀ k, (mapGet (parseTestResults "   ✓ t\n❌ a > t\ne\n".toList) k).map
        (fun r => r.passed) =
      (mapGet (phase1Map "   ✓ t\n❌ a > t\ne\n".toList) k).map
        (fun r => r.passed)) :=
  c5_failure_details [("t".toList, ⟨false, none⟩)] "a > t".toList "err".toList
    "   ✓ t\n❌ a > t\ne\n".toList "a ".toList " t".toList (by decide) (by decide)

/-
Lemmas about the failure-block matcher, for the end-of-text terminator claim.
-/

theorem dotChar_ne_nl (y : Char) (h : dotChar y = true) : (y == '\n') = false := by
  by_cases hq : (y == '\n') = true
  · have hy : y = '\n' := by simpa using hq
    subst hy
    exact absurd h (by decide)
  · simpa using hq

theorem grabTitle_cons2 (x d : Char) (l : List Char) :
    grabTitle (x :: d :: l) =
      if dotChar x then
        (if d == '\n' then some ([x], l)
        else
          match grabTitle (d :: l) with
          | some (t, r) => some (x :: t, r)
          | none => none)
      else none := rfl

theorem grabTitle_run (c0 : Char) (t rest : List Char)
    (hdot : (c0 :: t).all dotChar = true) :
    grabTitle ((c0 :: t) ++ '\n' :: rest) = some (c0 :: t, rest) := by
  induction t generalizing c0 with
  | nil =>
    rw [List.all_cons, Bool.and_eq_true] at hdot
    rw [List.cons_append, List.nil_append, grabTitle_cons2, if_pos hdot.1,
      if_pos (by decide)]
  | cons y t2 ih =>
    rw [List.all_cons, Bool.and_eq_true] at hdot
    have hy : dotChar y = true := by
      have := hdot.2
      rw [List.all_cons, Bool.and_eq_true] at this
      exact this.1
    rw [show ((c0 :: y :: t2) ++ '\n' :: rest : List Char)
        = c0 :: ((y :: t2) ++ '\n' :: rest) from rfl]
    rw [show ((y :: t2) ++ '\n' :: rest : List Char)
        = y :: (t2 ++ '\n' :: rest) from rfl]
    rw [grabTitle_cons2, if_pos hdot.1, if_neg (by rw [dotChar_ne_nl y hy]; exact Bool.false_ne_true)]
    rw [show (y :: (t2 ++ '\n' :: rest) : List Char)
        = (y :: t2) ++ '\n' :: rest from rfl]
    rw [ih y hdot.2]

theorem grabBody_cons (c : Char) (cs : List Char) :
    grabBody (c :: cs) =
      if termAhead cs then some ([c], cs)
      else
        match grabBody cs with
        | some (b, r) => some (c :: b, r)
        | none => none := rfl

theorem termAhead_all_dot (b : List Char) (h : b.all dotChar = true) :
    termAhead b = false := by
  cases b with
  | nil => rfl
  | cons y l =>
    rw [List.all_cons, Bool.and_eq_true] at h
    simp [termAhead, dotChar_ne_nl y h.1]

theorem grabBody_run (x : Char) (b : List Char)
    (hdot : (x :: b).all dotChar = true) :
    grabBody ((x :: b) ++ ['\n']) = some (x :: b, ['\n']) := by
  induction b generalizing x with
  | nil =>
    rw [List.cons_append, List.nil_append, grabBody_cons,
      if_pos (by decide)]
  | cons y b2 ih =>
    rw [List.all_cons, Bool.and_eq_true] at hdot
    have hy : (y :: b2).all dotChar = true := hdot.2
    have hyd : dotChar y = true := by
      rw [List.all_cons, Bool.and_eq_true] at hy
      exact hy.1
    have ht : termAhead ((y :: b2) ++ ['\n']) = false := by
      rw [List.cons_append]
      simp [termAhead, dotChar_ne_nl y hyd]
    rw [show ((x :: y :: b2) ++ ['\n'] : List Char)
        = x :: ((y :: b2) ++ ['\n']) from rfl]
    rw [grabBody_cons, if_neg (by rw [ht]; exact Bool.false_ne_true)]
    rw [ih y hy]

theorem grabBody_all_dot_none (b : List Char) (hdot : b.all dotChar = true) :
    grabBody b = none := by
  induction b with
  | nil => rfl
  | cons x b2 ih =>
    rw [List.all_cons, Bool.and_eq_true] at hdot
    rw [grabBody_cons, if_neg (by
      rw [termAhead_all_dot b2 hdot.2]
      exact Bool.false_ne_true)]
    rw [ih hdot.2]

theorem wsMoreTB_cons_nonws (c : Char) (cs : List Char) (h : wsChar c = false) :
    wsMoreTB (c :: cs) = grabTB (c :: cs) := by
  simp [wsMoreTB, h]

theorem matchFailure_cons_ws (c : Char) (cs : List Char) (h : wsChar c = true) :
    matchFailure (c :: cs) = wsMoreTB cs := by
  simp [matchFailure, h]

theorem scanFFuel_succ (f : Nat) (c : Char) (cs : List Char) :
    scanFFuel (f + 1) (c :: cs) =
      if c == '❌' then
        match matchFailure cs with
        | some (t, b, rest) => (t, b) :: scanFFuel f rest
        | none => scanFFuel f cs
      else scanFFuel f cs := rfl

theorem scanFFuel_no_marker (f : Nat) :
    ∀ l : List Char, l.all (fun x => !(x == '❌')) = true → scanFFuel f l = [] := by
  induction f with
  | zero => intro l _; rfl
  | succ f ih =>
    intro l h
    cases l with
    | nil => rfl
    | cons c cs =>
      rw [List.all_cons, Bool.and_eq_true] at h
      have hc : (c == '❌') = false := by
        have := h.1
        cases hq : (c == '❌') <;> simp_all
      rw [scanFFuel_succ, if_neg (by rw [hc]; exact Bool.false_ne_true)]
      exact ih cs h.2

/-- C6 counterexample: the final failure block reaches end-of-text with no
terminator line and the input does not end with a newline; the block is NOT
captured — the entry for `t` carries no message — contradicting the claim
that end-of-text alone terminates the block even without a trailing newline.
(The terminator lookahead `(?=\n\s*(?:...|$))` requires a literal newline
before its `$` alternative.) -/
theorem c6_counterexample :
    parseTestResults "   𐄂 t\n❌ s > t\nboom".toList =
      [("t".toList, ⟨false, none⟩)] := by
  decide

/-- C6 amended: end-of-text terminates the final failure block only through a
newline: a block `❌ <title>\n<body>` followed by a final newline (and nothing
else) is captured with exactly that title and body, but the same block
without the trailing newline is not captured at all; with the trailing
newline the message is attached to the matching entry. -/
theorem c6_amended (c0 x : Char) (t b : List Char)
    (hc0 : wsChar c0 = false)
    (hdt : (c0 :: t).all dotChar = true)
    (hmt : (c0 :: t).all (fun y => !(y == '❌')) = true)
    (hdb : (x :: b).all dotChar = true)
    (hmb : (x :: b).all (fun y => !(y == '❌')) = true) :
    scanFailures ('❌' :: ' ' :: ((c0 :: t) ++ '\n' :: ((x :: b) ++ ['\n']))) =
      [(c0 :: t, x :: b)] ∧
    scanFailures ('❌' :: ' ' :: ((c0 :: t) ++ '\n' :: (x :: b))) = [] ∧
    parseTestResults "   𐄂 t\n❌ s > t\nboom\n".toList =
      [("t".toList, ⟨false, some "boom".toList⟩)] := by
  have hm1 : matchFailure (' ' :: ((c0 :: t) ++ '\n' :: ((x :: b) ++ ['\n']))) =
      some (c0 :: t, x :: b, ['\n']) := by
    rw [matchFailure_cons_ws ' ' _ (by decide)]
    rw [show ((c0 :: t) ++ '\n' :: ((x :: b) ++ ['\n']) : List Char)
        = c0 :: (t ++ '\n' :: ((x :: b) ++ ['\n'])) from rfl]
    rw [wsMoreTB_cons_nonws c0 _ hc0]
    rw [show (c0 :: (t ++ '\n' :: ((x :: b) ++ ['\n'])) : List Char)
        = (c0 :: t) ++ '\n' :: ((x :: b) ++ ['\n']) from rfl]
    simp only [grabTB, grabTitle_run c0 t _ hdt, grabBody_run x b hdb]
  have hm2 : matchFailure (' ' :: ((c0 :: t) ++ '\n' :: (x :: b))) = none := by
    rw [matchFailure_cons_ws ' ' _ (by decide)]
    rw [show ((c0 :: t) ++ '\n' :: (x :: b) : List Char)
        = c0 :: (t ++ '\n' :: (x :: b)) from rfl]
    rw [wsMoreTB_cons_nonws c0 _ hc0]
    rw [show (c0 :: (t ++ '\n' :: (x :: b)) : List Char)
        = (c0 :: t) ++ '\n' :: (x :: b) from rfl]
    simp only [grabTB, grabTitle_run c0 t _ hdt,
      grabBody_all_dot_none (x :: b) hdb]
  refine ⟨?_, ?_, by decide⟩
  · unfold scanFailures
    rw [List.length_cons, scanFFuel_succ, if_pos (by decide)]
    simp only [hm1]
    rw [scanFFuel_no_marker _ ['\n'] (by decide)]
  · unfold scanFailures
    rw [List.length_cons, scanFFuel_succ, if_pos (by decide)]
    simp only [hm2]
    refine scanFFuel_no_marker _ _ ?_
    have h1 := hmt
    have h2 := hmb
    rw [List.all_cons, Bool.and_eq_true] at h1 h2
    simp only [List.all_cons, List.all_append, Bool.and_eq_true]
    exact ⟨by decide, ⟨h1.1, h1.2⟩, by decide, h2.1, h2.2⟩

/-- Witness for the amended C6 on the concrete block `❌ t\nboom`. -/
theorem c6_amended_witness :
    scanFailures ('❌' :: ' ' :: (['t'] ++ '\n' :: (('b' :: "oom".toList) ++ ['\n']))) =
      [(['t'], 'b' :: "oom".toList)] ∧
    scanFailures ('❌' :: ' ' :: (['t'] ++ '\n' :: ('b' :: "oom".toList))) = [] ∧
    parseTestResults "   𐄂 t\n❌ s > t\nboom\n".toList =
      [("t".toList, ⟨false, some "boom".toList⟩)] :=
  c6_amended 't' 'b' [] "oom".toList (by decide) (by decide) (by decide)
    (by decide) (by decide)

/-
Model of the Tree Correlator `TestController.updateTestItemResults`
(src/testController.ts).  The VS Code test-item tree is a labelled rose tree
(mutual item/forest encoding); the `run.passed`/`run.failed` calls are
modelled as outcome annotations on a mirrored tree.
-/

mutual
inductive TItem where
  | mk (label : List Char) (children : TForest)
inductive TForest where
  | nil
  | cons (head : TItem) (tail : TForest)
end

/-- Outcome recorded on a node: `run.passed` or `run.failed` with message. -/
inductive Outcome where
  | passed
  | failed (msg : List Char)

mutual
inductive AItem where
  | mk (label : List Char) (outcome : Option Outcome) (children : AForest)
inductive AForest where
  | nil
  | cons (head : AItem) (tail : AForest)
end

/-- Model of `result.message || "Test failed"` (empty string is falsy). -/
def failMessage (r : TestResult) : List Char :=
  match r.message with
  | some msg => if msg.isEmpty then "Test failed".toList else msg
  | none => "Test failed".toList

/-- Outcome recorded for a child whose label is a key of the map. -/
def outcomeOf (r : TestResult) : Outcome :=
  if r.passed then .passed else .failed (failMessage r)

mutual
/-- A subtree mirrored with no annotation anywhere. -/
def unannItem : TItem → AItem
  | .mk lab cs => .mk lab none (unannForest cs)
def unannForest : TForest → AForest
  | .nil => .nil
  | .cons h t => .cons (unannItem h) (unannForest t)
end

mutual
/-- Model of `updateTestItemResults(item, run, results)`: the argument node is
never annotated; its direct children are examined in order. -/
def updateResults (m : RMap) : TItem → AItem
  | .mk lab cs => .mk lab none (updateChildren m cs)
/-- The loop over `testItem.children`. -/
def updateChildren (m : RMap) : TForest → AForest
  | .nil => .nil
  | .cons h t => .cons (updateChild m h) (updateChildren m t)
/-- One child: `results.get(child.label)` hit records the outcome and stops
(the child's own subtree is not visited); a miss recurses into the child's
children with the same map. -/
def updateChild (m : RMap) : TItem → AItem
  | .mk lab cs =>
    match mapGet m lab with
    | some r => .mk lab (some (outcomeOf r)) (unannForest cs)
    | none => .mk lab none (updateChildren m cs)
end

mutual
/-- Some label in the subtree (the node itself included) is a key of `m`. -/
def subtreeHasKey (m : RMap) : TItem → Bool
  | .mk lab cs => mapHas m lab || forestHasKey m cs
def forestHasKey (m : RMap) : TForest → Bool
  | .nil => false
  | .cons h t => subtreeHasKey m h || forestHasKey m t
end

theorem mapGet_none_of_not_has (m : RMap) (k : List Char)
    (h : mapHas m k = false) : mapGet m k = none := by
  induction m with
  | nil => rfl
  | cons e tl ih =>
    simp only [mapHas, List.any_cons, Bool.or_eq_false_iff] at h
    simp only [mapGet, List.find?_cons, h.1]
    exact ih (by simp [mapHas, h.2])

mutual
theorem updateChild_no_match (m : RMap) (item : TItem)
    (h : subtreeHasKey m item = false) : updateChild m item = unannItem item := by
  cases item with
  | mk lab cs =>
    rw [subtreeHasKey] at h
    rw [Bool.or_eq_false_iff] at h
    rw [updateChild, mapGet_none_of_not_has m lab h.1]
    rw [unannItem, updateChildren_no_match m cs h.2]
theorem updateChildren_no_match (m : RMap) (f : TForest)
    (h : forestHasKey m f = false) : updateChildren m f = unannForest f := by
  cases f with
  | nil => rfl
  | cons hd tl =>
    rw [forestHasKey] at h
    rw [Bool.or_eq_false_iff] at h
    rw [updateChildren, unannForest, updateChild_no_match m hd h.1,
      updateChildren_no_match m tl h.2]
end

/-- C3: the correlator examines each direct child of the target node; a child
whose display label is a key of the flat map receives the mapped outcome
(passed, or failed with the attached message) and its subtree is not entered;
a child whose label is no key is recursed into with the same map; a child
whose whole subtree holds no matching label stays unannotated; and on the
concrete suite with test-children `a`, `b`, `c` and map
`{a: passed, b: failed "x"}` the correlator marks `a` passed, `b` failed with
message `x`, and leaves `c` unannotated. -/
theorem c3_correlator (m : RMap) (lab : List Char) (cs : TForest)
    (r : TestResult) (item : TItem) :
    (mapGet m lab = some r →
      updateChild m (.mk lab cs) = .mk lab (some (outcomeOf r)) (unannForest cs)) ∧
    (mapGet m lab = none →
      updateChild m (.mk lab cs) = .mk lab none (updateChildren m cs)) ∧
    (subtreeHasKey m item = false → updateChild m item = unannItem item) ∧
    updateResults m (.mk lab cs) = .mk lab none (updateChildren m cs) ∧
    updateResults
        [("a".toList, ⟨true, none⟩), ("b".toList, ⟨false, some "x".toList⟩)]
        (.mk "suite".toList
          (.cons (.mk "a".toList .nil)
            (.cons (.mk "b".toList .nil)
              (.cons (.mk "c".toList .nil) .nil)))) =
      .mk "suite".toList none
        (.cons (.mk "a".toList (some .passed) .nil)
          (.cons (.mk "b".toList (some (.failed "x".toList)) .nil)
            (.cons (.mk "c".toList none .nil) .nil))) := by
  refine ⟨?_, ?_, updateChild_no_match m item, ?_, ?_⟩
  · intro h
    rw [updateChild, h]
  · intro h
    rw [updateChild, h]
  · rw [updateResults]
  · rfl

/-- Witness for C3 at a concrete map, child and annotation-free sibling. -/
theorem c3_correlator_witness :
    (mapGet [("a".toList, (⟨true, none⟩ : TestResult))] "a".toList =
        some ⟨true, none⟩ →
      updateChild [("a".toList, ⟨true, none⟩)] (.mk "a".toList .nil) =
        .mk "a".toList (some (outcomeOf ⟨true, none⟩)) (unannForest .nil)) ∧
    (mapGet [("a".toList, (⟨true, none⟩ : TestResult))] "a".toList = none →
      updateChild [("a".toList, ⟨true, none⟩)] (.mk "a".toList .nil) =
        .mk "a".toList none
          (updateChildren [("a".toList, ⟨true, none⟩)] .nil)) ∧
    (subtreeHasKey [("a".toList, (⟨true, none⟩ : TestResult))]
        (.mk "z".toList .nil) = false →
      updateChild [("a".toList, ⟨true, none⟩)] (.mk "z".toList .nil) =
        unannItem (.mk "z".toList .nil)) ∧
    updateResults [("a".toList, ⟨true, none⟩)] (.mk "a".toList .nil) =
      .mk "a".toList none (updateChildren [("a".toList, ⟨true, none⟩)] .nil) ∧
    updateResults
        [("a".toList, ⟨true, none⟩), ("b".toList, ⟨false, some "x".toList⟩)]
        (.mk "suite".toList
          (.cons (.mk "a".toList .nil)
            (.cons (.mk "b".toList .nil)
              (.cons (.mk "c".toList .nil) .nil)))) =
      .mk "suite".toList none
        (.cons (.mk "a".toList (some .passed) .nil)
          (.cons (.mk "b".toList (some (.failed "x".toList)) .nil)
            (.cons (.mk "c".toList none .nil) .nil))) :=
  c3_correlator [("a".toList, ⟨true, none⟩)] "a".toList .nil ⟨true, none⟩
    (.mk "z".toList .nil)

/-
Model of the Structured Reporter `HierarchicalReporter`
(mocha-reporter/hierarchical.ts).  The reporter's mutable suite stack always
holds the chain from the root to the current suite, so the state keeps the
root tree plus the path (list of child indices) to the current suite;
`path = none` models the stack after the JavaScript code has popped the root
off (`[].pop()` style underflow).  Accessing the top of the empty stack
(`this.suiteStack[this.suiteStack.length - 1]` being `undefined` followed by
a property access) is modelled as `Except.error`.
-/

/-- Test info carried by a mocha test event. -/
structure TInfo where
  title : List Char
  fullTitle : List Char
  duration : Option Nat

/-- Error carried by a test-fail event. -/
structure ErrInfo where
  message : List Char
  stack : Option (List Char)

/-- Suite info carried by a suite event (`suite.root` flag included). -/
structure SInfo where
  root : Bool
  title : List Char
  fullTitle : List Char

/-- The `state` field of a `TestResult` tree node. -/
inductive TState where
  | passed
  | failed
  | pending

/-- A `TestResult` node of the hierarchical report. -/
structure MTest where
  title : List Char
  fullTitle : List Char
  state : TState
  duration : Option Nat
  error : Option ErrInfo

mutual
/-- A `SuiteResult` node: title, fullTitle, child suites, child tests. -/
inductive SuiteResult where
  | mk (title : List Char) (fullTitle : List Char)
       (suites : SuiteForest) (tests : List MTest)
/-- The `suites` array of a `SuiteResult`. -/
inductive SuiteForest where
  | nil
  | cons (head : SuiteResult) (tail : SuiteForest)
end

/-- The `suites` field. -/
def suitesOf : SuiteResult → SuiteForest
  | .mk _ _ sf _ => sf

/-- Number of child suites. -/
def forestLen : SuiteForest → Nat
  | .nil => 0
  | .cons _ t => forestLen t + 1

/-- `suites.push(child)`: append at the end. -/
def forestSnoc : SuiteForest → SuiteResult → SuiteForest
  | .nil, s => .cons s .nil
  | .cons h t, s => .cons h (forestSnoc t s)

/-- Child suite at an index. -/
def forestAt : SuiteForest → Nat → Option SuiteResult
  | .nil, _ => none
  | .cons h _, 0 => some h
  | .cons _ t, i + 1 => forestAt t i

/-- Replace the child suite at an index (no-op when out of range). -/
def forestSet : SuiteForest → Nat → SuiteResult → SuiteForest
  | .nil, _, _ => .nil
  | .cons _ t, 0, s => .cons s t
  | .cons h t, i + 1, s => .cons h (forestSet t i s)

/-- Node reached from `s` by the child-index path `p`. -/
def nodeAt : SuiteResult → List Nat → Option SuiteResult
  | s, [] => some s
  | s, i :: p =>
    match forestAt (suitesOf s) i with
    | some c => nodeAt c p
    | none => none

/-- `currentSuite.suites.push(newSuite)` at the end of path `p`. -/
def appendSuiteAt : SuiteResult → List Nat → SuiteResult → SuiteResult
  | .mk t ft sf ts, [], new => .mk t ft (forestSnoc sf new) ts
  | .mk t ft sf ts, i :: p, new =>
    match forestAt sf i with
    | some c => .mk t ft (forestSet sf i (appendSuiteAt c p new)) ts
    | none => .mk t ft sf ts

/-- `currentSuite.tests.push(testResult)` at the end of path `p`. -/
def appendTestAt : SuiteResult → List Nat → MTest → SuiteResult
  | .mk t ft sf ts, [], tst => .mk t ft sf (ts ++ [tst])
  | .mk t ft sf ts, i :: p, tst =>
    match forestAt sf i with
    | some c => .mk t ft (forestSet sf i (appendTestAt c p tst)) ts
    | none => .mk t ft sf ts

mutual
/-- Depth of the suite tree in suite edges (root at depth 0). -/
def suiteDepth : SuiteResult → Nat
  | .mk _ _ sf _ => forestDepth sf
def forestDepth : SuiteForest → Nat
  | .nil => 0
  | .cons h t => max (suiteDepth h + 1) (forestDepth t)
end

mutual
/-- Total number of `TestResult` nodes in the tree. -/
def suiteTests : SuiteResult → Nat
  | .mk _ _ sf ts => ts.length + forestTests sf
def forestTests : SuiteForest → Nat
  | .nil => 0
  | .cons h t => suiteTests h + forestTests t
end

/-- The mocha lifecycle events consumed by the reporter (§6): exactly
run-begin, suite-begin, suite-end, test-pass, test-fail, test-pending,
run-end. -/
inductive REvent where
  | runBegin
  | suiteBegin (s : SInfo)
  | suiteEnd (s : SInfo)
  | testPass (t : TInfo)
  | testFail (t : TInfo) (e : ErrInfo)
  | testPending (t : TInfo)
  | runEnd

/-- Reporter state: root suite, suite-stack path, suite counter. -/
structure RState where
  root : SuiteResult
  path : Option (List Nat)
  suiteCount : Nat

/-- A fresh `SuiteResult` as built in the suite-begin handler. -/
def emptySuite (title fullTitle : List Char) : SuiteResult :=
  .mk title fullTitle .nil []

/-- Constructor state: empty root suite pushed on the stack, counter 0. -/
def initState : RState :=
  ⟨.mk [] [] .nil [], some [], 0⟩

/-- The `TestResult` built by `addTest` (error attached only when present). -/
def mkTest (t : TInfo) (st : TState) (e : Option ErrInfo) : MTest :=
  ⟨t.title, t.fullTitle, st, t.duration, e⟩

/-- `addTest`: push a test onto the suite on top of the stack; on an empty
stack the property access on `undefined` throws. -/
def addTest (st : RState) (t : TInfo) (s : TState) (e : Option ErrInfo) :
    Except (List Char) RState :=
  match st.path with
  | none => .error "TypeError: tests of undefined".toList
  | some p => .ok { st with root := appendTestAt st.root p (mkTest t s e) }

/-- One lifecycle event of the `HierarchicalReporter` handlers. -/
def step (st : RState) (ev : REvent) : Except (List Char) RState :=
  match ev with
  | .runBegin => .ok { st with suiteCount := 0 }
  | .suiteBegin s =>
    if s.root then .ok st
    else
      match st.path with
      | none => .error "TypeError: suites of undefined".toList
      | some p =>
        .ok { root := appendSuiteAt st.root p (emptySuite s.title s.fullTitle),
              path := some (p ++ [match nodeAt st.root p with
                | some n => forestLen (suitesOf n)
                | none => 0]),
              suiteCount := st.suiteCount + 1 }
  | .suiteEnd s =>
    if s.root then .ok st
    else
      match st.path with
      | none => .ok st
      | some [] => .ok { st with path := none }
      | some p => .ok { st with path := some p.dropLast }
  | .testPass t => addTest st t .passed none
  | .testFail t e => addTest st t .failed (some e)
  | .testPending t => addTest st t .pending none
  | .runEnd => .ok st

/-- Whole event sequence from the constructor state. -/
def processEvents (es : List REvent) : Except (List Char) RState :=
  es.foldlM step initState

/-- Test outcome events (pass, fail, pending). -/
def isTestEv : REvent → Bool
  | .testPass _ => true
  | .testFail _ _ => true
  | .testPending _ => true
  | _ => false

/-- Non-root suite-begin events. -/
def isBeginEv : REvent → Bool
  | .suiteBegin s => !s.root
  | _ => false

/-- Non-root suite-end events. -/
def isEndEv : REvent → Bool
  | .suiteEnd s => !s.root
  | _ => false

/-- Number of test outcome events. -/
def countT (es : List REvent) : Nat :=
  es.countP isTestEv

/-- Final nesting depth of a sequence started at depth `d`; `none` when some
prefix would pop below the root. -/
def endDepth : Nat → List REvent → Option Nat
  | d, [] => some d
  | d, e :: es =>
    if isBeginEv e then endDepth (d + 1) es
    else if isEndEv e then
      match d with
      | 0 => none
      | d2 + 1 => endDepth d2 es
    else endDepth d es

/-- No prefix pops below the root. -/
def noUnderflow : Nat → List REvent → Bool
  | _, [] => true
  | d, e :: es =>
    if isBeginEv e then noUnderflow (d + 1) es
    else if isEndEv e then
      match d with
      | 0 => false
      | d2 + 1 => noUnderflow d2 es
    else noUnderflow d es

/-- Maximum nesting depth reached, starting from depth `d`. -/
def maxNest : Nat → List REvent → Nat
  | d, [] => d
  | d, e :: es =>
    if isBeginEv e then max d (maxNest (d + 1) es)
    else if isEndEv e then max d (maxNest (d - 1) es)
    else max d (maxNest d es)

/-- `n` with one more child suite appended, as suite-begin leaves the parent. -/
def withChild : SuiteResult → SuiteResult → SuiteResult
  | .mk t ft sf ts, c => .mk t ft (forestSnoc sf c) ts

/-
Forest-level lemmas for the reporter invariants.
-/

theorem forestAt_snoc_len (sf : SuiteForest) (s : SuiteResult) :
    forestAt (forestSnoc sf s) (forestLen sf) = some s := by
  cases sf with
  | nil => rfl
  | cons h t => simpa [forestSnoc, forestLen, forestAt] using forestAt_snoc_len t s

theorem forestAt_set_self (sf : SuiteForest) (i : Nat) (c x : SuiteResult)
    (h : forestAt sf i = some c) :
    forestAt (forestSet sf i x) i = some x := by
  cases sf with
  | nil => cases h
  | cons hd tl =>
    cases i with
    | zero => rfl
    | succ j => exact forestAt_set_self tl j c x h

theorem forestDepth_snoc (sf : SuiteForest) (s : SuiteResult) :
    forestDepth (forestSnoc sf s) = max (forestDepth sf) (suiteDepth s + 1) := by
  cases sf with
  | nil => simp [forestSnoc, forestDepth]
  | cons h t =>
    simp only [forestSnoc, forestDepth, forestDepth_snoc t s]
    omega

theorem forestTests_snoc (sf : SuiteForest) (s : SuiteResult) :
    forestTests (forestSnoc sf s) = forestTests sf + suiteTests s := by
  cases sf with
  | nil => simp [forestSnoc, forestTests]
  | cons h t =>
    simp only [forestSnoc, forestTests, forestTests_snoc t s]
    omega

theorem forestAt_depth_le (sf : SuiteForest) (i : Nat) (c : SuiteResult)
    (h : forestAt sf i = some c) : suiteDepth c + 1 ≤ forestDepth sf := by
  cases sf with
  | nil => cases h
  | cons hd tl =>
    cases i with
    | zero =>
      cases h
      simp only [forestDepth]
      omega
    | succ j =>
      have := forestAt_depth_le tl j c h
      simp only [forestDepth]
      omega

theorem forestDepth_set (sf : SuiteForest) (i : Nat) (c x : SuiteResult)
    (h : forestAt sf i = some c) (hle : suiteDepth c ≤ suiteDepth x) :
    forestDepth (forestSet sf i x) = max (forestDepth sf) (suiteDepth x + 1) := by
  cases sf with
  | nil => cases h
  | cons hd tl =>
    cases i with
    | zero =>
      cases h
      simp only [forestSet, forestDepth]
      omega
    | succ j =>
      simp only [forestSet, forestDepth, forestDepth_set tl j c x h hle]
      omega

theorem forestTests_set (sf : SuiteForest) (i : Nat) (c x : SuiteResult)
    (k : Nat) (h : forestAt sf i = some c)
    (hk : suiteTests x = suiteTests c + k) :
    forestTests (forestSet sf i x) = forestTests sf + k := by
  cases sf with
  | nil => cases h
  | cons hd tl =>
    cases i with
    | zero =>
      cases h
      simp only [forestSet, forestTests, hk]
      omega
    | succ j =>
      simp only [forestSet, forestTests, forestTests_set tl j c x k h hk]
      omega

/-- `n` with one more test appended, as `addTest` leaves the current suite. -/
def withTest : SuiteResult → MTest → SuiteResult
  | .mk t ft sf ts, tst => .mk t ft sf (ts ++ [tst])

theorem appendSuiteAt_depth (p : List Nat) :
    ∀ (root n new : SuiteResult), nodeAt root p = some n →
      suiteDepth (appendSuiteAt root p new) =
        max (suiteDepth root) (p.length + suiteDepth new + 1) := by
  induction p with
  | nil =>
    intro root n new _
    cases root with
    | mk t ft sf ts =>
      simp only [appendSuiteAt, suiteDepth, forestDepth_snoc, List.length_nil]
      omega
  | cons i p2 ih =>
    intro root n new h
    cases root with
    | mk t ft sf ts =>
      simp only [nodeAt, suitesOf] at h
      cases hA : forestAt sf i with
      | none =>
        simp only [hA] at h
        cases h
      | some c =>
        simp only [hA] at h
        simp only [appendSuiteAt, hA, suiteDepth]
        have hd := ih c n new h
        have hle : suiteDepth c ≤ suiteDepth (appendSuiteAt c p2 new) := by
          rw [hd]
          omega
        rw [forestDepth_set sf i c _ hA hle, hd]
        have hb := forestAt_depth_le sf i c hA
        simp only [List.length_cons]
        omega

theorem appendSuiteAt_tests (p : List Nat) :
    ∀ (root n new : SuiteResult), nodeAt root p = some n →
      suiteTests (appendSuiteAt root p new) = suiteTests root + suiteTests new := by
  induction p with
  | nil =>
    intro root n new _
    cases root with
    | mk t ft sf ts =>
      simp only [appendSuiteAt, suiteTests, forestTests_snoc]
      omega
  | cons i p2 ih =>
    intro root n new h
    cases root with
    | mk t ft sf ts =>
      simp only [nodeAt, suitesOf] at h
      cases hA : forestAt sf i with
      | none =>
        simp only [hA] at h
        cases h
      | some c =>
        simp only [hA] at h
        simp only [appendSuiteAt, hA, suiteTests]
        rw [forestTests_set sf i c _ (suiteTests new) hA (ih c n new h)]
        omega

theorem appendTestAt_depth (p : List Nat) :
    ∀ (root : SuiteResult) (tst : MTest),
      suiteDepth (appendTestAt root p tst) = suiteDepth root := by
  induction p with
  | nil =>
    intro root tst
    cases root with
    | mk t ft sf ts => simp only [appendTestAt, suiteDepth]
  | cons i p2 ih =>
    intro root tst
    cases root with
    | mk t ft sf ts =>
      cases hA : forestAt sf i with
      | none => simp only [appendTestAt, hA]
      | some c =>
        simp only [appendTestAt, hA, suiteDepth]
        rw [forestDepth_set sf i c _ hA (Nat.le_of_eq (ih c tst).symm), ih c tst]
        have hb := forestAt_depth_le sf i c hA
        omega

theorem appendTestAt_tests (p : List Nat) :
    ∀ (root n : SuiteResult) (tst : MTest), nodeAt root p = some n →
      suiteTests (appendTestAt root p tst) = suiteTests root + 1 := by
  induction p with
  | nil =>
    intro root n tst _
    cases root with
    | mk t ft sf ts =>
      simp only [appendTestAt, suiteTests, List.length_append, List.length_cons,
        List.length_nil]
      omega
  | cons i p2 ih =>
    intro root n tst h
    cases root with
    | mk t ft sf ts =>
      simp only [nodeAt, suitesOf] at h
      cases hA : forestAt sf i with
      | none =>
        simp only [hA] at h
        cases h
      | some c =>
        simp only [hA] at h
        simp only [appendTestAt, hA, suiteTests]
        rw [forestTests_set sf i c _ 1 hA (ih c n tst h)]
        omega

theorem nodeAt_append (p : List Nat) :
    ∀ (s : SuiteResult) (q : List Nat),
      nodeAt s (p ++ q) =
        match nodeAt s p with
        | some n => nodeAt n q
        | none => none := by
  induction p with
  | nil => intro s q; rfl
  | cons i p2 ih =>
    intro s q
    cases s with
    | mk t ft sf ts =>
      simp only [List.cons_append, nodeAt, suitesOf]
      cases hA : forestAt sf i with
      | none => rfl
      | some c => exact ih c q

theorem nodeAt_appendSuite_parent (p : List Nat) :
    ∀ (root n new : SuiteResult), nodeAt root p = some n →
      nodeAt (appendSuiteAt root p new) p = some (withChild n new) := by
  induction p with
  | nil =>
    intro root n new h
    cases root with
    | mk t ft sf ts =>
      simp only [nodeAt] at h
      cases h
      simp only [appendSuiteAt, nodeAt, withChild]
  | cons i p2 ih =>
    intro root n new h
    cases root with
    | mk t ft sf ts =>
      simp only [nodeAt, suitesOf] at h
      cases hA : forestAt sf i with
      | none =>
        simp only [hA] at h
        cases h
      | some c =>
        simp only [hA] at h
        simp only [appendSuiteAt, hA, nodeAt, suitesOf]
        rw [forestAt_set_self sf i c _ hA]
        exact ih c n new h

theorem nodeAt_appendSuite_new (p : List Nat) (root n new : SuiteResult)
    (h : nodeAt root p = some n) :
    nodeAt (appendSuiteAt root p new) (p ++ [forestLen (suitesOf n)]) =
      some new := by
  rw [nodeAt_append, nodeAt_appendSuite_parent p root n new h]
  cases n with
  | mk t ft sf ts =>
    simp only [withChild, nodeAt, suitesOf, forestAt_snoc_len]

theorem nodeAt_appendTest (p : List Nat) :
    ∀ (root n : SuiteResult) (tst : MTest), nodeAt root p = some n →
      nodeAt (appendTestAt root p tst) p = some (withTest n tst) := by
  induction p with
  | nil =>
    intro root n tst h
    cases root with
    | mk t ft sf ts =>
      simp only [nodeAt] at h
      cases h
      simp only [appendTestAt, nodeAt, withTest]
  | cons i p2 ih =>
    intro root n tst h
    cases root with
    | mk t ft sf ts =>
      simp only [nodeAt, suitesOf] at h
      cases hA : forestAt sf i with
      | none =>
        simp only [hA] at h
        cases h
      | some c =>
        simp only [hA] at h
        simp only [appendTestAt, hA, nodeAt, suitesOf]
        rw [forestAt_set_self sf i c _ hA]
        exact ih c n tst h

theorem nodeAt_dropLast (p : List Nat) (root n : SuiteResult)
    (hne : p ≠ []) (h : nodeAt root p = some n) :
    ∃ n1, nodeAt root p.dropLast = some n1 := by
  have hsplit : p.dropLast ++ [p.getLast hne] = p := List.dropLast_append_getLast hne
  rw [← hsplit, nodeAt_append] at h
  cases h2 : nodeAt root p.dropLast with
  | none => rw [h2] at h; cases h
  | some n1 => exact ⟨n1, rfl⟩

theorem path_length_le (p : List Nat) :
    ∀ (root n : SuiteResult), nodeAt root p = some n →
      p.length ≤ suiteDepth root := by
  induction p with
  | nil => intro root n _; simp
  | cons i p2 ih =>
    intro root n h
    cases root with
    | mk t ft sf ts =>
      simp only [nodeAt, suitesOf] at h
      cases hA : forestAt sf i with
      | none =>
        simp only [hA] at h
        cases h
      | some c =>
        simp only [hA] at h
        have h1 := ih c n h
        have h2 := forestAt_depth_le sf i c hA
        simp only [List.length_cons, suiteDepth]
        omega

theorem maxNest_ge (es : List REvent) : ∀ d : Nat, d ≤ maxNest d es := by
  induction es with
  | nil => intro d; simp [maxNest]
  | cons e es ih =>
    intro d
    simp only [maxNest]
    by_cases h1 : isBeginEv e = true
    · rw [if_pos h1]; exact Nat.le_max_left _ _
    · rw [if_neg h1]
      by_cases h2 : isEndEv e = true
      · rw [if_pos h2]; exact Nat.le_max_left _ _
      · rw [if_neg h2]; exact Nat.le_max_left _ _

theorem noUnderflow_of_endDepth (es : List REvent) :
    ∀ d d2 : Nat, endDepth d es = some d2 → noUnderflow d es = true := by
  induction es with
  | nil => intro d d2 _; rfl
  | cons e es ih =>
    intro d d2 h
    simp only [endDepth] at h
    simp only [noUnderflow]
    by_cases h1 : isBeginEv e = true
    · rw [if_pos h1] at h ⊢; exact ih _ _ h
    · rw [if_neg h1] at h ⊢
      by_cases h2 : isEndEv e = true
      · rw [if_pos h2] at h ⊢
        cases d with
        | zero => cases h
        | succ d3 => exact ih _ _ h
      · rw [if_neg h2] at h ⊢; exact ih _ _ h

theorem run_ok (es : List REvent) :
    ∀ (st : RState) (p : List Nat) (n : SuiteResult),
      st.path = some p → nodeAt st.root p = some n →
      noUnderflow p.length es = true →
      ∃ (st2 : RState) (p2 : List Nat) (n2 : SuiteResult),
        List.foldlM step st es = Except.ok st2 ∧ st2.path = some p2 ∧
        nodeAt st2.root p2 = some n2 ∧
        suiteTests st2.root = suiteTests st.root + countT es ∧
        suiteDepth st2.root = max (suiteDepth st.root) (maxNest p.length es) := by
  induction es with
  | nil =>
    intro st p n hp hn _
    refine ⟨st, p, n, rfl, hp, hn, by simp [countT], ?_⟩
    have hb := path_length_le p st.root n hn
    simp only [maxNest]
    omega
  | cons e es ih =>
    intro st p n hp hn hnu
    have hb := path_length_le p st.root n hn
    have hg := maxNest_ge es
    cases e with
    | runBegin =>
      have hnu2 : noUnderflow p.length es = true := by
        simpa [noUnderflow, isBeginEv, isEndEv] using hnu
      obtain ⟨st2, p2, n2, hfold, hp2, hn2, hT, hD⟩ :=
        ih { st with suiteCount := 0 } p n (by simp [hp]) hn hnu2
      have hT2 : suiteTests st2.root = suiteTests st.root + countT es := hT
      have hD2 : suiteDepth st2.root
          = max (suiteDepth st.root) (maxNest p.length es) := hD
      refine ⟨st2, p2, n2, ?_, hp2, hn2, ?_, ?_⟩
      · rw [show List.foldlM step st (REvent.runBegin :: es)
            = (step st .runBegin >>= fun b => List.foldlM step b es) from rfl]
        rw [show step st .runBegin = Except.ok { st with suiteCount := 0 } from rfl]
        exact hfold
      · rw [hT2]
        simp [countT, List.countP_cons, isTestEv]
      · have hmx : maxNest p.length (REvent.runBegin :: es)
            = max p.length (maxNest p.length es) := by
          simp [maxNest, isBeginEv, isEndEv]
        rw [hmx]
        have := hg p.length
        omega
    | runEnd =>
      have hnu2 : noUnderflow p.length es = true := by
        simpa [noUnderflow, isBeginEv, isEndEv] using hnu
      obtain ⟨st2, p2, n2, hfold, hp2, hn2, hT, hD⟩ := ih st p n hp hn hnu2
      refine ⟨st2, p2, n2, ?_, hp2, hn2, ?_, ?_⟩
      · rw [show List.foldlM step st (REvent.runEnd :: es)
            = (step st .runEnd >>= fun b => List.foldlM step b es) from rfl]
        rw [show step st .runEnd = Except.ok st from rfl]
        exact hfold
      · rw [hT]
        simp [countT, List.countP_cons, isTestEv]
      · have hmx : maxNest p.length (REvent.runEnd :: es)
            = max p.length (maxNest p.length es) := by
          simp [maxNest, isBeginEv, isEndEv]
        rw [hmx, hD]
        have := hg p.length
        omega
    | suiteBegin s =>
      by_cases hroot : s.root = true
      · have hnu2 : noUnderflow p.length es = true := by
          simpa [noUnderflow, isBeginEv, isEndEv, hroot] using hnu
        obtain ⟨st2, p2, n2, hfold, hp2, hn2, hT, hD⟩ := ih st p n hp hn hnu2
        refine ⟨st2, p2, n2, ?_, hp2, hn2, ?_, ?_⟩
        · rw [show List.foldlM step st (REvent.suiteBegin s :: es)
              = (step st (.suiteBegin s) >>= fun b => List.foldlM step b es) from rfl]
          rw [show step st (.suiteBegin s) = Except.ok st from by
            simp [step, hroot]]
          exact hfold
        · rw [hT]
          simp [countT, List.countP_cons, isTestEv]
        · have hmx : maxNest p.length (REvent.suiteBegin s :: es)
              = max p.length (maxNest p.length es) := by
            simp [maxNest, isBeginEv, isEndEv, hroot]
          rw [hmx, hD]
          have := hg p.length
          omega
      · simp only [Bool.not_eq_true] at hroot
        have hnu2 : noUnderflow (p.length + 1) es = true := by
          simpa [noUnderflow, isBeginEv, isEndEv, hroot] using hnu
        set newS := emptySuite s.title s.fullTitle with hnewS
        have hstep : step st (.suiteBegin s)
            = Except.ok ⟨appendSuiteAt st.root p newS,
                some (p ++ [forestLen (suitesOf n)]), st.suiteCount + 1⟩ := by
          simp only [step, hroot, Bool.false_eq_true, if_false, hp, hn]
        have hplen : (p ++ [forestLen (suitesOf n)]).length = p.length + 1 := by
          simp
        have hvalid := nodeAt_appendSuite_new p st.root n newS hn
        obtain ⟨st2, p2, n2, hfold, hp2, hn2, hT, hD⟩ :=
          ih ⟨appendSuiteAt st.root p newS,
              some (p ++ [forestLen (suitesOf n)]), st.suiteCount + 1⟩
            (p ++ [forestLen (suitesOf n)]) newS rfl hvalid (by rw [hplen]; exact hnu2)
        have hT2 : suiteTests st2.root
            = suiteTests (appendSuiteAt st.root p newS) + countT es := hT
        have hD2 : suiteDepth st2.root
            = max (suiteDepth (appendSuiteAt st.root p newS))
                (maxNest (p ++ [forestLen (suitesOf n)]).length es) := hD
        have hTapp : suiteTests (appendSuiteAt st.root p newS)
            = suiteTests st.root + suiteTests newS := appendSuiteAt_tests p st.root n newS hn
        have hDapp : suiteDepth (appendSuiteAt st.root p newS)
            = max (suiteDepth st.root) (p.length + suiteDepth newS + 1) :=
          appendSuiteAt_depth p st.root n newS hn
        have hnewT : suiteTests newS = 0 := rfl
        have hnewD : suiteDepth newS = 0 := rfl
        refine ⟨st2, p2, n2, ?_, hp2, hn2, ?_, ?_⟩
        · rw [show List.foldlM step st (REvent.suiteBegin s :: es)
              = (step st (.suiteBegin s) >>= fun b => List.foldlM step b es) from rfl]
          rw [hstep]
          exact hfold
        · rw [hT2, hTapp, hnewT]
          simp [countT, List.countP_cons, isTestEv]
        · have hmx : maxNest p.length (REvent.suiteBegin s :: es)
              = max p.length (maxNest (p.length + 1) es) := by
            simp [maxNest, isBeginEv, isEndEv, hroot]
          rw [hmx, hD2, hDapp, hnewD, hplen]
          have := hg (p.length + 1)
          omega
    | suiteEnd s =>
      by_cases hroot : s.root = true
      · have hnu2 : noUnderflow p.length es = true := by
          simpa [noUnderflow, isBeginEv, isEndEv, hroot] using hnu
        obtain ⟨st2, p2, n2, hfold, hp2, hn2, hT, hD⟩ := ih st p n hp hn hnu2
        refine ⟨st2, p2, n2, ?_, hp2, hn2, ?_, ?_⟩
        · rw [show List.foldlM step st (REvent.suiteEnd s :: es)
              = (step st (.suiteEnd s) >>= fun b => List.foldlM step b es) from rfl]
          rw [show step st (.suiteEnd s) = Except.ok st from by
            simp [step, hroot]]
          exact hfold
        · rw [hT]
          simp [countT, List.countP_cons, isTestEv]
        · have hmx : maxNest p.length (REvent.suiteEnd s :: es)
              = max p.length (maxNest p.length es) := by
            simp [maxNest, isBeginEv, isEndEv, hroot]
          rw [hmx, hD]
          have := hg p.length
          omega
      · simp only [Bool.not_eq_true] at hroot
        cases p with
        | nil =>
          exfalso
          have : noUnderflow 0 (REvent.suiteEnd s :: es) = true := by
            simpa using hnu
          simp [noUnderflow, isBeginEv, isEndEv, hroot] at this
        | cons i0 prest =>
          have hnu2 : noUnderflow prest.length es = true := by
            simpa [noUnderflow, isBeginEv, isEndEv, hroot] using hnu
          have hstep : step st (.suiteEnd s)
              = Except.ok { st with path := some (i0 :: prest).dropLast } := by
            simp only [step, hroot, Bool.false_eq_true, if_false, hp]
          obtain ⟨n1, hn1⟩ :=
            nodeAt_dropLast (i0 :: prest) st.root n (by simp) hn
          have hdl : (i0 :: prest).dropLast.length = prest.length := by
            simp [List.length_dropLast]
          obtain ⟨st2, p2, n2, hfold, hp2, hn2, hT, hD⟩ :=
            ih { st with path := some (i0 :: prest).dropLast }
              (i0 :: prest).dropLast n1 rfl hn1 (by rw [hdl]; exact hnu2)
          have hT2 : suiteTests st2.root = suiteTests st.root + countT es := hT
          have hD2 : suiteDepth st2.root
              = max (suiteDepth st.root)
                  (maxNest (i0 :: prest).dropLast.length es) := hD
          refine ⟨st2, p2, n2, ?_, hp2, hn2, ?_, ?_⟩
          · rw [show List.foldlM step st (REvent.suiteEnd s :: es)
                = (step st (.suiteEnd s) >>= fun b => List.foldlM step b es) from rfl]
            rw [hstep]
            exact hfold
          · rw [hT2]
            simp [countT, List.countP_cons, isTestEv]
          · have hmx : maxNest (i0 :: prest).length (REvent.suiteEnd s :: es)
                = max (i0 :: prest).length
                    (maxNest ((i0 :: prest).length - 1) es) := by
              simp [maxNest, isBeginEv, isEndEv, hroot]
            rw [hmx, hD2, hdl]
            have hlc : (i0 :: prest).length - 1 = prest.length := by simp
            rw [hlc]
            simp only [List.length_cons] at hb ⊢
            have := hg prest.length
            omega
    | testPass t =>
      have hnu2 : noUnderflow p.length es = true := by
        simpa [noUnderflow, isBeginEv, isEndEv] using hnu
      have hstep : step st (.testPass t)
          = Except.ok { st with root := appendTestAt st.root p (mkTest t .passed none) } := by
        simp only [step, addTest, hp]
      obtain ⟨st2, p2, n2, hfold, hp2, hn2, hT, hD⟩ :=
        ih { st with root := appendTestAt st.root p (mkTest t .passed none) } p
          (withTest n (mkTest t .passed none)) (by simp [hp])
          (nodeAt_appendTest p st.root n (mkTest t .passed none) hn) hnu2
      have hT2 : suiteTests st2.root
          = suiteTests (appendTestAt st.root p (mkTest t .passed none)) + countT es := hT
      have hD2 : suiteDepth st2.root
          = max (suiteDepth (appendTestAt st.root p (mkTest t .passed none)))
              (maxNest p.length es) := hD
      refine ⟨st2, p2, n2, ?_, hp2, hn2, ?_, ?_⟩
      · rw [show List.foldlM step st (REvent.testPass t :: es)
            = (step st (.testPass t) >>= fun b => List.foldlM step b es) from rfl]
        rw [hstep]
        exact hfold
      · rw [hT2, appendTestAt_tests p st.root n (mkTest t .passed none) hn]
        simp [countT, List.countP_cons, isTestEv]
        omega
      · have hmx : maxNest p.length (REvent.testPass t :: es)
            = max p.length (maxNest p.length es) := by
          simp [maxNest, isBeginEv, isEndEv]
        rw [hmx, hD2, appendTestAt_depth p st.root (mkTest t .passed none)]
        have := hg p.length
        omega
    | testFail t e2 =>
      have hnu2 : noUnderflow p.length es = true := by
        simpa [noUnderflow, isBeginEv, isEndEv] using hnu
      have hstep : step st (.testFail t e2)
          = Except.ok { st with root := appendTestAt st.root p (mkTest t .failed (some e2)) } := by
        simp only [step, addTest, hp]
      obtain ⟨st2, p2, n2, hfold, hp2, hn2, hT, hD⟩ :=
        ih { st with root := appendTestAt st.root p (mkTest t .failed (some e2)) } p
          (withTest n (mkTest t .failed (some e2))) (by simp [hp])
          (nodeAt_appendTest p st.root n (mkTest t .failed (some e2)) hn) hnu2
      have hT2 : suiteTests st2.root
          = suiteTests (appendTestAt st.root p (mkTest t .failed (some e2))) + countT es := hT
      have hD2 : suiteDepth st2.root
          = max (suiteDepth (appendTestAt st.root p (mkTest t .failed (some e2))))
              (maxNest p.length es) := hD
      refine ⟨st2, p2, n2, ?_, hp2, hn2, ?_, ?_⟩
      · rw [show List.foldlM step st (REvent.testFail t e2 :: es)
            = (step st (.testFail t e2) >>= fun b => List.foldlM step b es) from rfl]
        rw [hstep]
        exact hfold
      · rw [hT2, appendTestAt_tests p st.root n (mkTest t .failed (some e2)) hn]
        simp [countT, List.countP_cons, isTestEv]
        omega
      · have hmx : maxNest p.length (REvent.testFail t e2 :: es)
            = max p.length (maxNest p.length es) := by
          simp [maxNest, isBeginEv, isEndEv]
        rw [hmx, hD2, appendTestAt_depth p st.root (mkTest t .failed (some e2))]
        have := hg p.length
        omega
    | testPending t =>
      have hnu2 : noUnderflow p.length es = true := by
        simpa [noUnderflow, isBeginEv, isEndEv] using hnu
      have hstep : step st (.testPending t)
          = Except.ok { st with root := appendTestAt st.root p (mkTest t .pending none) } := by
        simp only [step, addTest, hp]
      obtain ⟨st2, p2, n2, hfold, hp2, hn2, hT, hD⟩ :=
        ih { st with root := appendTestAt st.root p (mkTest t .pending none) } p
          (withTest n (mkTest t .pending none)) (by simp [hp])
          (nodeAt_appendTest p st.root n (mkTest t .pending none) hn) hnu2
      have hT2 : suiteTests st2.root
          = suiteTests (appendTestAt st.root p (mkTest t .pending none)) + countT es := hT
      have hD2 : suiteDepth st2.root
          = max (suiteDepth (appendTestAt st.root p (mkTest t .pending none)))
              (maxNest p.length es) := hD
      refine ⟨st2, p2, n2, ?_, hp2, hn2, ?_, ?_⟩
      · rw [show List.foldlM step st (REvent.testPending t :: es)
            = (step st (.testPending t) >>= fun b => List.foldlM step b es) from rfl]
        rw [hstep]
        exact hfold
      · rw [hT2, appendTestAt_tests p st.root n (mkTest t .pending none) hn]
        simp [countT, List.countP_cons, isTestEv]
        omega
      · have hmx : maxNest p.length (REvent.testPending t :: es)
            = max p.length (maxNest p.length es) := by
          simp [maxNest, isBeginEv, isEndEv]
        rw [hmx, hD2, appendTestAt_depth p st.root (mkTest t .pending none)]
        have := hg p.length
        omega

/-- C2: for every event sequence with balanced non-root suite-begin/end pairs
the reporter runs without error and produces a tree whose total test count is
the number of test-pass, test-fail and test-pending events and whose depth is
the maximum suite nesting depth of the sequence; and each non-root
suite-begin appends a fresh suite as the last child of the suite on top of
the stack, increments the suite counter, and pushes the new suite (the stack
path now ends at it). -/
theorem c2_reporter (es : List REvent) (hbal : endDepth 0 es = some 0) :
    (∃ (st2 : RState) (p2 : List Nat), processEvents es = Except.ok st2 ∧
      st2.path = some p2 ∧
      suiteTests st2.root = countT es ∧
      suiteDepth st2.root = maxNest 0 es) ∧
    (∀ (st : RState) (p : List Nat) (n : SuiteResult) (s : SInfo),
      st.path = some p → nodeAt st.root p = some n → s.root = false →
      step st (.suiteBegin s)
        = Except.ok ⟨appendSuiteAt st.root p (emptySuite s.title s.fullTitle),
            some (p ++ [forestLen (suitesOf n)]), st.suiteCount + 1⟩ ∧
      nodeAt (appendSuiteAt st.root p (emptySuite s.title s.fullTitle)) p
        = some (withChild n (emptySuite s.title s.fullTitle)) ∧
      nodeAt (appendSuiteAt st.root p (emptySuite s.title s.fullTitle))
          (p ++ [forestLen (suitesOf n)])
        = some (emptySuite s.title s.fullTitle)) := by
  constructor
  · have hnu := noUnderflow_of_endDepth es 0 0 hbal
    obtain ⟨st2, p2, n2, hfold, hp2, hn2, hT, hD⟩ :=
      run_ok es initState [] (.mk [] [] .nil []) rfl rfl hnu
    refine ⟨st2, p2, hfold, hp2, ?_, ?_⟩
    · rw [show suiteTests initState.root = 0 from rfl, Nat.zero_add] at hT
      exact hT
    · rw [show suiteDepth initState.root = 0 from rfl] at hD
      simpa using hD
  · intro st p n s hp hn hroot
    refine ⟨?_, nodeAt_appendSuite_parent p st.root n _ hn,
      nodeAt_appendSuite_new p st.root n _ hn⟩
    simp only [step, hroot, Bool.false_eq_true, if_false, hp, hn]

/-- Witness for C2 on the sequence suite-begin, test-pass, suite-end. -/
theorem c2_reporter_witness :
    ∃ (st2 : RState) (p2 : List Nat),
      processEvents [REvent.suiteBegin ⟨false, "s".toList, "s".toList⟩,
        REvent.testPass ⟨"t".toList, "s t".toList, none⟩,
        REvent.suiteEnd ⟨false, "s".toList, "s".toList⟩] = Except.ok st2 ∧
      st2.path = some p2 ∧
      suiteTests st2.root = countT [REvent.suiteBegin ⟨false, "s".toList, "s".toList⟩,
        REvent.testPass ⟨"t".toList, "s t".toList, none⟩,
        REvent.suiteEnd ⟨false, "s".toList, "s".toList⟩] ∧
      suiteDepth st2.root = maxNest 0 [REvent.suiteBegin ⟨false, "s".toList, "s".toList⟩,
        REvent.testPass ⟨"t".toList, "s t".toList, none⟩,
        REvent.suiteEnd ⟨false, "s".toList, "s".toList⟩] :=
  (c2_reporter [REvent.suiteBegin ⟨false, "s".toList, "s".toList⟩,
    REvent.testPass ⟨"t".toList, "s t".toList, none⟩,
    REvent.suiteEnd ⟨false, "s".toList, "s".toList⟩] (by decide)).1

/-- C7 counterexample: a suite-exited event with no matching suite-entered
(the stack holds only the root) followed by run-end is processed WITHOUT any
error: the pop silently removes the root from the stack and the run completes
normally, contradicting the claim that the violation propagates as an
unrecoverable error to the caller. -/
theorem c7_counterexample :
    processEvents [REvent.suiteEnd ⟨false, [], []⟩, REvent.runEnd]
      = Except.ok ⟨SuiteResult.mk [] [] .nil [], none, 0⟩ := rfl

/-- C7 amended: a mismatched non-root suite-exited event is silently absorbed
at the moment it occurs — with only the root on the stack it pops the root
(state keeps running with an empty stack), and on an already empty stack it
is a no-op; an error surfaces only later, when a subsequent non-root
suite-begin or test event accesses the top of the empty stack; run-end never
surfaces it. -/
theorem c7_amended (st st2 : RState) (h : st.path = none)
    (h2 : st2.path = some []) (s : SInfo) (hs : s.root = false)
    (t : TInfo) (e : ErrInfo) :
    step st (.suiteBegin s) = Except.error "TypeError: suites of undefined".toList ∧
    step st (.testPass t) = Except.error "TypeError: tests of undefined".toList ∧
    step st (.testFail t e) = Except.error "TypeError: tests of undefined".toList ∧
    step st (.testPending t) = Except.error "TypeError: tests of undefined".toList ∧
    step st (.suiteEnd s) = Except.ok st ∧
    step st .runEnd = Except.ok st ∧
    step st2 (.suiteEnd s) = Except.ok { st2 with path := none } := by
  refine ⟨?_, ?_, ?_, ?_, ?_, rfl, ?_⟩
  · simp only [step, hs, Bool.false_eq_true, if_false, h]
  · simp only [step, addTest, h]
  · simp only [step, addTest, h]
  · simp only [step, addTest, h]
  · simp only [step, hs, Bool.false_eq_true, if_false, h]
  · simp only [step, hs, Bool.false_eq_true, if_false, h2]

/-- Witness for the amended C7 at the concrete underflowed state. -/
theorem c7_amended_witness :
    step ⟨SuiteResult.mk [] [] .nil [], none, 0⟩
        (.suiteBegin ⟨false, [], []⟩)
      = Except.error "TypeError: suites of undefined".toList ∧
    step ⟨SuiteResult.mk [] [] .nil [], none, 0⟩ (.testPass ⟨[], [], none⟩)
      = Except.error "TypeError: tests of undefined".toList ∧
    step ⟨SuiteResult.mk [] [] .nil [], none, 0⟩
        (.testFail ⟨[], [], none⟩ ⟨[], none⟩)
      = Except.error "TypeError: tests of undefined".toList ∧
    step ⟨SuiteResult.mk [] [] .nil [], none, 0⟩ (.testPending ⟨[], [], none⟩)
      = Except.error "TypeError: tests of undefined".toList ∧
    step ⟨SuiteResult.mk [] [] .nil [], none, 0⟩ (.suiteEnd ⟨false, [], []⟩)
      = Except.ok ⟨SuiteResult.mk [] [] .nil [], none, 0⟩ ∧
    step ⟨SuiteResult.mk [] [] .nil [], none, 0⟩ .runEnd
      = Except.ok ⟨SuiteResult.mk [] [] .nil [], none, 0⟩ ∧
    step initState (.suiteEnd ⟨false, [], []⟩)
      = Except.ok { initState with path := none } :=
  c7_amended ⟨SuiteResult.mk [] [] .nil [], none, 0⟩ initState rfl rfl
    ⟨false, [], []⟩ rfl ⟨[], [], none⟩ ⟨[], none⟩

end WTR
